import Mathlib

/-!
Verification of the collection / filter / budget / chunking core of the
telegram digest scripts (`telegram-digest-public.py`, `telegram-digest.py`).

Strings are modelled as `List Char`; Python regular expressions over the
ASCII range are modelled by structurally recursive scanners (the scripts'
inputs of interest are ASCII; `\w` is modelled as ASCII alphanumeric or
underscore, `\s` and `str.strip` as the six ASCII whitespace characters).
Machine integers do not overflow in the modelled code paths, so counts are
`Nat` and timestamps are `Int`.
-/

set_option maxRecDepth 100000

/-- Constant `MAX_MSG_LENGTH = 500` from both scripts. -/
def MAX_MSG_LENGTH : Nat := 500

/-- Constant `MIN_MSG_LENGTH = 20` from both scripts. -/
def MIN_MSG_LENGTH : Nat := 20

/-- Constant `TG_MAX_MESSAGE_LENGTH = 4096` from both scripts. -/
def TG_MAX_MESSAGE_LENGTH : Nat := 4096

/-- Constant `MAX_PAGES_PER_CHANNEL = 5` from the public script. -/
def MAX_PAGES_PER_CHANNEL : Nat := 5

/-- Python regex `\w` over the ASCII range: letter, digit or underscore. -/
def isWordChar (c : Char) : Bool := c.isAlphanum || c = '_'

/-- Python whitespace (`str.strip`, regex `\s`) over the ASCII range. -/
def isPySpace (c : Char) : Bool :=
  c = ' ' || c = '\t' || c = '\n' || c = '\r' || c = '\x0b' || c = '\x0c'

/-- Python `str.strip()`: drop leading and trailing whitespace. -/
def pyStrip (s : List Char) : List Char :=
  ((s.dropWhile isPySpace).reverse.dropWhile isPySpace).reverse

/-- Run-capping scanner: keep at most `k` consecutive copies of `ch`,
with `n` counting the copies of `ch` kept just before the current position.
`collapseAux ch 1` models `re.sub(r" {2,}", " ")` (for `ch = ' '`) and
`collapseAux ch 2` models `re.sub(r"\n{3,}", "\n\n")` (for `ch = '\n'`). -/
def collapseAux (ch : Char) (k : Nat) : Nat → List Char → List Char
  | _, [] => []
  | n, c :: rest =>
    if c = ch then
      if n < k then c :: collapseAux ch k (n + 1) rest
      else collapseAux ch k n rest
    else c :: collapseAux ch k 0 rest

/-- Model of `re.sub(r" {2,}", " ", text)`: every run of spaces becomes one. -/
def spaceCollapse (s : List Char) : List Char := collapseAux ' ' 1 0 s

/-- Model of `re.sub(r"\n{3,}", "\n\n", text)`: runs of three or more
newlines become exactly two. -/
def nlCollapse (s : List Char) : List Char := collapseAux '\n' 2 0 s

/-- Does a maximal word-character run following `@` complete a match of the
pattern `@\w+bot\b` (case-insensitive)?  The run must have at least one
character before a trailing `bot`. -/
def isBotRun (run : List Char) : Bool :=
  4 ≤ run.length && (run.reverse.take 3).map Char.toLower = ['t', 'o', 'b']

/-- Fuelled scanner for `re.sub(r"@\w+bot\b", "", text, flags=re.IGNORECASE)`.
A match starts at `@`, consumes the maximal word-character run after it, and
fires exactly when that run ends in case-insensitive `bot` with at least one
extra leading word character (the following character, being out of the run,
is a non-word character or the end, so `\b` holds there and nowhere inside).
Fuel at least `length + 1` makes the scanner total; see `mentionRemove`. -/
def mentionRemoveF : Nat → List Char → List Char
  | 0, s => s
  | _ + 1, [] => []
  | f + 1, c :: rest =>
    if c = '@' then
      (if isBotRun (rest.takeWhile isWordChar) then []
       else '@' :: rest.takeWhile isWordChar) ++
        mentionRemoveF f (rest.dropWhile isWordChar)
    else c :: mentionRemoveF f rest

/-- Model of `re.sub(r"@\w+bot\b", "", text, flags=re.IGNORECASE)`. -/
def mentionRemove (s : List Char) : List Char := mentionRemoveF (s.length + 1) s

/-- Does the string contain a match of `@\w+bot\b` (case-insensitive)? -/
def hasMention : List Char → Bool
  | [] => false
  | c :: rest => (c = '@' && isBotRun (rest.takeWhile isWordChar)) || hasMention rest

/-- Model of `clean_text` from both scripts: remove bot mentions, collapse
newline runs of three or more to two, collapse space runs to one, truncate
to `MAX_MSG_LENGTH` appending `"..."`, and strip surrounding whitespace. -/
def clean_text (text : List Char) : List Char :=
  let t1 := mentionRemove text
  let t2 := nlCollapse t1
  let t3 := spaceCollapse t2
  let t4 := if MAX_MSG_LENGTH < t3.length
            then t3.take MAX_MSG_LENGTH ++ ['.', '.', '.'] else t3
  pyStrip t4

/-- Model of `re.sub(r"\s+", " ", s)`: every maximal run of whitespace
characters becomes a single space.  The flag records whether the previous
character was whitespace (its space already emitted). -/
def wsCollapseAux : Bool → List Char → List Char
  | _, [] => []
  | b, c :: rest =>
    if isPySpace c then
      if b then wsCollapseAux true rest else ' ' :: wsCollapseAux true rest
    else c :: wsCollapseAux false rest

/-- Model of `re.sub(r"\s+", " ", s)`. -/
def wsCollapse (s : List Char) : List Char := wsCollapseAux false s

/-- Deduplication key of the public (scrape) variant:
`re.sub(r"\s+", " ", text[:100]).strip().lower()`. -/
def pubKey (text : List Char) : List Char :=
  (pyStrip (wsCollapse (text.take 100))).map Char.toLower

/-- Deduplication key of the client variant: `text[:100].lower()`
(no whitespace collapsing). -/
def clientKey (text : List Char) : List Char :=
  (text.take 100).map Char.toLower

/-- Parsed message of the public (scrape) variant: the dict
`{"id": msg_id, "date": msg_date, "text": text}` built by `parse_messages`. -/
structure Msg where
  id : Int
  date : Int
  text : List Char
deriving DecidableEq, Repr

/-- One `.tgme_widget_message` element as seen by `parse_messages`:
`postId` is the integer parsed from `data-post` (`none` when absent or
malformed), `wdate` the parsed `time[datetime]` value (`none` when the
element is missing or unparsable), `wtext` the text of
`.tgme_widget_message_text` before stripping (`none` when absent). -/
structure Widget where
  postId : Option Int
  wdate : Option Int
  wtext : Option (List Char)
deriving DecidableEq, Repr

/-- Widget scan of `parse_messages`: accumulate messages in order while
tracking the smallest id seen (tracked before the date filter, as in the
source). -/
def parseGo (cutoff : Int) : List Widget → Option Int → List Msg × Option Int
  | [], oldest => ([], oldest)
  | w :: rest, oldest =>
    match w.postId with
    | none => parseGo cutoff rest oldest
    | some mid =>
      let oldest' := match oldest with
        | none => some mid
        | some o => if mid < o then some mid else some o
      match w.wdate with
      | none => parseGo cutoff rest oldest'
      | some d =>
        if d < cutoff then parseGo cutoff rest oldest'
        else
          match w.wtext with
          | none => parseGo cutoff rest oldest'
          | some t =>
            let t' := pyStrip t
            if t' = [] then parseGo cutoff rest oldest'
            else
              let p := parseGo cutoff rest oldest'
              (⟨mid, d, t'⟩ :: p.1, p.2)

/-- Model of `parse_messages(html, channel, cutoff)`: the HTML is abstracted
to its widget list plus the `.tgme_channel_history_unavailable` flag. -/
def parse_messages (widgets : List Widget) (histUnavailable : Bool)
    (cutoff : Int) : List Msg × Option Int :=
  if histUnavailable then ([], none) else parseGo cutoff widgets none

/-- Outcome of one HTTP GET in the public variant, as classified by
`fetch_page`: a parsed page, HTTP 429, another HTTP error status
(`raise_for_status`), or a network error (`httpx.RequestError`). -/
inductive FetchOutcome where
  | ok (widgets : List Widget) (histUnavailable : Bool)
  | rate
  | httpErr
  | netErr
deriving DecidableEq, Repr

/-- Model of `fetch_page`: consume attempts from the transport stream.  A
first 429 sleeps and retries once; a 429 on the retry gives up.  Any other
failing status or a network error returns `None` without a retry.  The
returned stream holds the attempts not yet consumed. -/
def fetch_page : List FetchOutcome → Option (List Widget × Bool) × List FetchOutcome
  | [] => (none, [])
  | .ok w u :: rest => (some (w, u), rest)
  | .httpErr :: rest => (none, rest)
  | .netErr :: rest => (none, rest)
  | .rate :: rest =>
    match rest with
    | [] => (none, [])
    | .ok w u :: r2 => (some (w, u), r2)
    | .rate :: r2 => (none, r2)
    | .httpErr :: r2 => (none, r2)
    | .netErr :: r2 => (none, r2)

/-- Inner loop of `scrape_channel` over one page: append messages whose id
was not seen before, returning the new seen set, the extended accumulator
and `new_count`. -/
def addNew : List Int → List Msg → List Msg → List Int × List Msg × Nat
  | seen, acc, [] => (seen, acc, 0)
  | seen, acc, m :: ms =>
    if m.id ∈ seen then addNew seen acc ms
    else
      let p := addNew (m.id :: seen) (acc ++ [m]) ms
      (p.1, p.2.1, p.2.2 + 1)

/-- Pagination loop of `scrape_channel` (`for page in range(MAX_PAGES...)`),
with `remaining` pages to go and `isFirst` true on the first page.  The
pagination token `before` is carried as in the source, the page contents
come from the transport stream.  Stops on fetch failure, an empty first
page, a page without new ids, reaching the cap, or a page with no oldest id.
Returns the collected messages and the unconsumed stream. -/
def scrape_loop (cutoff : Int) (maxMessages : Nat) :
    Nat → Bool → List FetchOutcome → Option Int → List Int → List Msg →
    List Msg × List FetchOutcome
  | 0, _, stream, _, _, acc => (acc, stream)
  | rem + 1, isFirst, stream, _before, seenIds, acc =>
    match fetch_page stream with
    | (none, rest) => (acc, rest)
    | (some (widgets, unavail), rest) =>
      let pm := parse_messages widgets unavail cutoff
      if pm.1.isEmpty && isFirst then (acc, rest)
      else
        let an := addNew seenIds acc pm.1
        if an.2.2 = 0 then (an.2.1, rest)
        else if maxMessages ≤ an.2.1.length then (an.2.1, rest)
        else
          match pm.2 with
          | some o => scrape_loop cutoff maxMessages rem false rest (some o) an.1 an.2.1
          | none => (an.2.1, rest)

/-- Stable insertion into a date-descending list: the element goes after
every element whose date is at least as large, so insertion order is kept
among equal dates, as with Python's stable `list.sort(reverse=True)`. -/
def insertByDate (m : Msg) : List Msg → List Msg
  | [] => [m]
  | x :: xs => if x.date < m.date then m :: x :: xs else x :: insertByDate m xs

/-- Model of `all_messages.sort(key=lambda m: m["date"], reverse=True)`:
stable sort by date, newest first. -/
def sortByDateDesc (l : List Msg) : List Msg :=
  l.foldl (fun acc m => insertByDate m acc) []

/-- Filter loop of `scrape_channel`: minimum-length check on the raw text,
deduplication on `pubKey` (the key is recorded before cleaning), then
`clean_text`, keeping non-empty results. -/
def scrapeFilter : List Msg → List (List Char) → List (List Char)
  | [], _ => []
  | m :: rest, seenKeys =>
    if m.text.length < MIN_MSG_LENGTH then scrapeFilter rest seenKeys
    else
      let key := pubKey m.text
      if key ∈ seenKeys then scrapeFilter rest seenKeys
      else
        let cleaned := clean_text m.text
        if cleaned = [] then scrapeFilter rest (key :: seenKeys)
        else cleaned :: scrapeFilter rest (key :: seenKeys)

/-- Model of `scrape_channel(client, channel, cutoff, max_messages)`: paginate
over the transport stream, sort by date descending, truncate to the cap and
run the filter loop. -/
def scrape_channel (stream : List FetchOutcome) (cutoff : Int)
    (maxMessages : Nat) : List (List Char) :=
  let collected := scrape_loop cutoff maxMessages MAX_PAGES_PER_CHANNEL true stream none [] []
  scrapeFilter ((sortByDateDesc collected.1).take maxMessages) []

/-- Budget loop of the public `collect_messages`: greedily append messages
while `total_chars + len(msg)` stays within `token_limit`; the first message
that would exceed it stops the channel.  Returns the kept messages and the
updated running total. -/
def applyBudget (tokenLimit : Nat) : Nat → List (List Char) → List (List Char) × Nat
  | total, [] => ([], total)
  | total, m :: ms =>
    if tokenLimit < total + m.length then ([], total)
    else
      let p := applyBudget tokenLimit (total + m.length) ms
      (m :: p.1, p.2)

/-- Python dict assignment `d[k] = v` on an insertion-ordered association
list: an existing key keeps its position and gets the new value, a new key
is appended. -/
def dictInsert (k : List Char) (v : List (List Char))
    (d : List (List Char × List (List Char))) : List (List Char × List (List Char)) :=
  if d.any (fun p => p.1 = k) then d.map (fun p => if p.1 = k then (k, v) else p)
  else d ++ [(k, v)]

/-- Channel normalization of the public `collect_messages`:
`raw_channel.lstrip("@").strip()`. -/
def normChannel (raw : List Char) : List Char :=
  pyStrip (raw.dropWhile (fun c => c = '@'))

/-- Channel loop of the public `collect_messages`.  The per-channel message
lists are produced by `scrape` (abstracting `scrape_channel` applied to the
channel's transport); empty channel names are skipped, each channel's
messages pass through `applyBudget`, non-empty budgeted lists are stored
under the normalized name, and the loop stops when the running total
exceeds the limit.  Returns the result mapping and the final total. -/
def collectPubGo (tokenLimit : Nat) (scrape : List Char → List (List Char)) :
    List (List Char) → Nat → List (List Char × List (List Char)) →
    List (List Char × List (List Char)) × Nat
  | [], total, res => (res, total)
  | raw :: rest, total, res =>
    let channel := normChannel raw
    if channel = [] then collectPubGo tokenLimit scrape rest total res
    else
      let p := applyBudget tokenLimit total (scrape channel)
      let res' := if p.1 = [] then res else dictInsert channel p.1 res
      if tokenLimit < p.2 then (res', p.2)
      else collectPubGo tokenLimit scrape rest p.2 res'

/-- Model of the public `collect_messages` over all configured channels,
starting from an empty result and a zero running total. -/
def collect_messages_public (tokenLimit : Nat)
    (scrape : List Char → List (List Char)) (channels : List (List Char)) :
    List (List Char × List (List Char)) :=
  (collectPubGo tokenLimit scrape channels 0 []).1

/-- Media attached to a Telethon message, restricted to the constructors the
script inspects; `other` covers every remaining media type. -/
inductive Media where
  | nomedia
  | poll (question : List Char) (answers : List (List Char))
  | contact
  | geo
  | geoLive
  | dice
  | other
deriving DecidableEq, Repr

/-- Telethon message as inspected by the client variant: timestamp, the
noise flags, the media and the text (or caption). -/
structure TLMessage where
  date : Int
  isService : Bool
  sticker : Bool
  voice : Bool
  videoNote : Bool
  gif : Bool
  media : Media
  text : List Char
deriving DecidableEq, Repr

/-- Model of `is_noise`: service messages, stickers, voice and video notes,
animations, contacts, geo and live locations, and dice are noise. -/
def is_noise (m : TLMessage) : Bool :=
  m.isService || m.sticker || m.voice || m.videoNote || m.gif ||
    (match m.media with
     | .contact => true
     | .geo => true
     | .geoLive => true
     | .dice => true
     | _ => false)

/-- Model of `extract_text`: a poll becomes
`"Poll: <question> | Options: <comma-joined answers>"`; otherwise the
stripped text, with an empty result mapped to `none`. -/
def extract_text (m : TLMessage) : Option (List Char) :=
  match m.media with
  | .poll q ans =>
    some ("Poll: ".toList ++ q ++ " | Options: ".toList ++
      (List.intercalate ", ".toList ans))
  | _ =>
    let t := pyStrip m.text
    if t = [] then none else some t

/-- Per-channel message loop of the client `collect_messages`: stop at the
first message older than the cutoff, skip noise, extract text, enforce the
minimum length, deduplicate on `clientKey` (recording the key before
cleaning), clean, and stop when the running total would exceed the limit.
Returns the accepted messages and the updated total. -/
def clientLoop (cutoff : Int) (tokenLimit : Nat) :
    List TLMessage → List (List Char) → List (List Char) → Nat →
    List (List Char) × Nat
  | [], _, acc, total => (acc, total)
  | m :: rest, seen, acc, total =>
    if m.date < cutoff then (acc, total)
    else if is_noise m then clientLoop cutoff tokenLimit rest seen acc total
    else
      match extract_text m with
      | none => clientLoop cutoff tokenLimit rest seen acc total
      | some text =>
        if text.length < MIN_MSG_LENGTH then clientLoop cutoff tokenLimit rest seen acc total
        else
          let key := clientKey text
          if key ∈ seen then clientLoop cutoff tokenLimit rest seen acc total
          else
            let cleaned := clean_text text
            if cleaned = [] then clientLoop cutoff tokenLimit rest (key :: seen) acc total
            else if tokenLimit < total + cleaned.length then (acc, total)
            else clientLoop cutoff tokenLimit rest (key :: seen)
              (acc ++ [cleaned]) (total + cleaned.length)

/-- Channel loop of the client `collect_messages`: `resolve` abstracts
`get_entity` plus `iter_messages` and yields the display name and the
time-descending message sequence (capped at `maxPer` by the transport's
`limit=`); unresolvable channels are skipped, non-empty results are stored
under the display name, and the loop stops when the total exceeds the
limit. -/
def collectClientGo (cutoff : Int) (tokenLimit : Nat) (maxPer : Nat)
    (resolve : Nat → Option (List Char × List TLMessage)) :
    List Nat → Nat → List (List Char × List (List Char)) →
    List (List Char × List (List Char)) × Nat
  | [], total, res => (res, total)
  | cid :: rest, total, res =>
    match resolve cid with
    | none => collectClientGo cutoff tokenLimit maxPer resolve rest total res
    | some (name, msgs) =>
      let p := clientLoop cutoff tokenLimit (msgs.take maxPer) [] [] total
      let res' := if p.1 = [] then res else dictInsert name p.1 res
      if tokenLimit < p.2 then (res', p.2)
      else collectClientGo cutoff tokenLimit maxPer resolve rest p.2 res'

/-- Model of the client `collect_messages` over all configured channels. -/
def collect_messages_client (cutoff : Int) (tokenLimit : Nat) (maxPer : Nat)
    (resolve : Nat → Option (List Char × List TLMessage)) (channels : List Nat) :
    List (List Char × List (List Char)) :=
  (collectClientGo cutoff tokenLimit maxPer resolve channels 0 []).1

/-- Python `text.split("\n")` as a list of lines without their newlines;
the result always has one more entry than the number of newlines and is
never empty. -/
def splitNl : List Char → List (List Char)
  | [] => [[]]
  | c :: rest =>
    if c = '\n' then [] :: splitNl rest
    else
      match splitNl rest with
      | [] => [[c]]
      | l :: ls => (c :: l) :: ls

/-- One line step of the chunk loop in `send_to_telegram`: when appending
the line (plus its newline) would push the current chunk past the limit,
flush the current chunk and restart from the bare line; otherwise append. -/
def chunkStep (st : List (List Char) × List Char) (line : List Char) :
    List (List Char) × List Char :=
  if TG_MAX_MESSAGE_LENGTH < st.2.length + line.length + 1
  then (st.1 ++ [st.2], line ++ ['\n'])
  else (st.1, st.2 ++ line ++ ['\n'])

/-- Chunk-splitting of `send_to_telegram`: when `header + text` fits in one
Telegram message it is the sole chunk; otherwise the fold walks the lines,
flushing the current chunk whenever appending the next line (plus newline)
would exceed the limit, and a whitespace-only final chunk is dropped. -/
def send_to_telegram_chunks (header text : List Char) : List (List Char) :=
  if (header ++ text).length ≤ TG_MAX_MESSAGE_LENGTH then [header ++ text]
  else
    let p := (splitNl text).foldl chunkStep (([] : List (List Char)), header)
    if pyStrip p.2 = [] then p.1 else p.1 ++ [p.2]

/-- Sum of the lengths of a list of strings. -/
def sumLens (l : List (List Char)) : Nat := (l.map List.length).sum

/-- Total character count across all values of a result mapping. -/
def sumVals (d : List (List Char × List (List Char))) : Nat :=
  (d.map (fun p => sumLens p.2)).sum

/-- Bounded-run predicate: `runBound ch k n s` holds when, assuming `n`
copies of `ch` immediately precede `s`, no run of `ch` in the combined
string exceeds `k`. -/
def runBound (ch : Char) (k : Nat) : Nat → List Char → Bool
  | _, [] => true
  | n, c :: rest =>
    if c = ch then decide (n + 1 ≤ k) && runBound ch k (n + 1) rest
    else runBound ch k 0 rest

/-! ### Generic list helpers -/

theorem dropWhile_dropWhile (p : α → Bool) (l : List α) :
    (l.dropWhile p).dropWhile p = l.dropWhile p := by
  induction l with
  | nil => rfl
  | cons c t ih =>
    by_cases h : p c
    · simp [List.dropWhile_cons, h, ih]
    · simp [List.dropWhile_cons, h]

theorem dropWhile_head_false (p : α → Bool) (l : List α) (c : α) (t : List α)
    (h : l.dropWhile p = c :: t) : p c = false := by
  induction l with
  | nil => simp at h
  | cons x xs ih =>
    by_cases hx : p x
    · rw [List.dropWhile_cons_of_pos hx] at h; exact ih h
    · rw [List.dropWhile_cons_of_neg hx] at h
      cases h; simpa using hx

theorem length_dropWhile_le (p : α → Bool) (l : List α) :
    (l.dropWhile p).length ≤ l.length := by
  induction l with
  | nil => simp
  | cons x xs ih =>
    by_cases hx : p x
    · rw [List.dropWhile_cons_of_pos hx]; exact Nat.le_succ_of_le ih
    · rw [List.dropWhile_cons_of_neg hx]

/-- Right-strip decomposition: every list is its right-stripped part
followed by a tail of elements all satisfying `p`. -/
theorem rstrip_decomp (p : α → Bool) (y : List α) :
    ∃ w, y = ((y.reverse.dropWhile p).reverse) ++ w ∧ ∀ c ∈ w, p c = true := by
  refine ⟨(y.reverse.takeWhile p).reverse, ?_, ?_⟩
  · have h := List.takeWhile_append_dropWhile p y.reverse
    calc y = y.reverse.reverse := by simp
    _ = (y.reverse.takeWhile p ++ y.reverse.dropWhile p).reverse := by rw [h]
    _ = (y.reverse.dropWhile p).reverse ++ (y.reverse.takeWhile p).reverse := by
          rw [List.reverse_append]
  · intro c hc
    rw [List.mem_reverse] at hc
    exact List.mem_takeWhile_imp hc

theorem pyStrip_length_le (s : List Char) : (pyStrip s).length ≤ s.length := by
  unfold pyStrip
  rw [List.length_reverse]
  calc ((s.dropWhile isPySpace).reverse.dropWhile isPySpace).length
      ≤ (s.dropWhile isPySpace).reverse.length := length_dropWhile_le _ _
    _ = (s.dropWhile isPySpace).length := by rw [List.length_reverse]
    _ ≤ s.length := length_dropWhile_le _ _

theorem dropWhile_eq_self_of_head (p : α → Bool) (l : List α)
    (h : ∀ c t, l = c :: t → p c = false) : l.dropWhile p = l := by
  cases l with
  | nil => rfl
  | cons c t => exact List.dropWhile_cons_of_neg (by simp [h c t rfl])

theorem pyStrip_idem (s : List Char) : pyStrip (pyStrip s) = pyStrip s := by
  unfold pyStrip
  set y := s.dropWhile isPySpace with hy
  set z := (y.reverse.dropWhile isPySpace).reverse with hz
  have hzdw : z.dropWhile isPySpace = z := by
    obtain ⟨w, hw, -⟩ := rstrip_decomp isPySpace y
    rw [← hz] at hw
    apply dropWhile_eq_self_of_head
    intro c t hct
    have : y.dropWhile isPySpace = y := by rw [hy]; exact dropWhile_dropWhile _ _
    have hyct : y = c :: (t ++ w) := by rw [hw, hct]; simp
    have : y.dropWhile isPySpace = c :: (t ++ w) := by rw [this, hyct]
    exact dropWhile_head_false isPySpace y c (t ++ w) this
  rw [hzdw]
  have h2 : z.reverse.dropWhile isPySpace = z.reverse := by
    rw [hz, List.reverse_reverse]
    exact dropWhile_dropWhile _ _
  rw [h2, List.reverse_reverse]

theorem pyStrip_eq_nil_all_space (s : List Char) (h : pyStrip s = []) :
    ∀ c ∈ s, isPySpace c = true := by
  intro c hc
  unfold pyStrip at h
  have h2 : (s.dropWhile isPySpace).reverse.dropWhile isPySpace = [] := by
    have := congrArg List.reverse h
    simpa using this
  rw [List.dropWhile_eq_nil_iff] at h2
  have hall : ∀ x ∈ s.dropWhile isPySpace, isPySpace x = true := by
    intro x hx
    exact h2 x (by simpa using hx)
  have hsplit := List.takeWhile_append_dropWhile isPySpace s
  rw [← hsplit] at hc
  rcases List.mem_append.mp hc with h3 | h3
  · exact List.mem_takeWhile_imp h3
  · exact hall c h3

/-! ### runBound lemmas -/

theorem runBound_mono (ch : Char) (k : Nat) :
    ∀ (s : List Char) (m m' : Nat), m' ≤ m → runBound ch k m s = true →
      runBound ch k m' s = true := by
  intro s
  induction s with
  | nil => intro m m' _ _; rfl
  | cons c t ih =>
    intro m m' hle h
    by_cases hc : c = ch
    · simp only [runBound, if_pos hc, Bool.and_eq_true, decide_eq_true_eq] at h ⊢
      exact ⟨Nat.le_trans (Nat.add_le_add_right hle 1) h.1, ih (m + 1) (m' + 1)
        (Nat.add_le_add_right hle 1) h.2⟩
    · simp only [runBound, if_neg hc] at h ⊢
      exact h

theorem runBound_tail (ch : Char) (k : Nat) (c : Char) (t : List Char) (n : Nat)
    (h : runBound ch k n (c :: t) = true) : runBound ch k 0 t = true := by
  by_cases hc : c = ch
  · simp only [runBound, if_pos hc, Bool.and_eq_true] at h
    exact runBound_mono ch k t (n + 1) 0 (Nat.zero_le _) h.2
  · simpa [runBound, if_neg hc] using h

theorem runBound_collapseAux (ch : Char) (k : Nat) :
    ∀ (s : List Char) (n : Nat), n ≤ k →
      runBound ch k n (collapseAux ch k n s) = true := by
  intro s
  induction s with
  | nil => intro n _; rfl
  | cons c t ih =>
    intro n hn
    by_cases hc : c = ch
    · by_cases hlt : n < k
      · simp only [collapseAux, if_pos hc, if_pos hlt]
        simp only [runBound, if_pos hc, Bool.and_eq_true, decide_eq_true_eq]
        exact ⟨hlt, ih (n + 1) hlt⟩
      · simp only [collapseAux, if_pos hc, if_neg hlt]
        exact ih n hn
    · simp only [collapseAux, if_neg hc]
      simp only [runBound, if_neg hc]
      exact ih 0 (Nat.zero_le _)

theorem collapseAux_eq_self (ch : Char) (k : Nat) :
    ∀ (s : List Char) (n : Nat), runBound ch k n s = true →
      collapseAux ch k n s = s := by
  intro s
  induction s with
  | nil => intro n _; rfl
  | cons c t ih =>
    intro n h
    by_cases hc : c = ch
    · simp only [runBound, if_pos hc, Bool.and_eq_true, decide_eq_true_eq] at h
      have hlt : n < k := h.1
      simp only [collapseAux, if_pos hc, if_pos hlt]
      rw [ih (n + 1) h.2]
    · simp only [runBound, if_neg hc] at h
      simp only [collapseAux, if_neg hc]
      rw [ih 0 h]

theorem runBound_collapseAux_other (ch ch' : Char) (k k' : Nat)
    (hne : ch ≠ ch') (hk' : 1 ≤ k') :
    ∀ (s : List Char) (m n' : Nat), (m = 0 ∨ n' = 0) →
      runBound ch k m s = true →
      runBound ch k m (collapseAux ch' k' n' s) = true := by
  intro s
  induction s with
  | nil => intro m n' _ _; rfl
  | cons c t ih =>
    intro m n' hinv h
    by_cases hc' : c = ch'
    · have hcch : c ≠ ch := by rw [hc']; exact fun he => hne he.symm
      simp only [runBound, if_neg hcch] at h
      by_cases hlt : n' < k'
      · simp only [collapseAux, if_pos hc', if_pos hlt]
        simp only [runBound, if_neg hcch]
        exact ih 0 (n' + 1) (Or.inl rfl) h
      · simp only [collapseAux, if_pos hc', if_neg hlt]
        have hm : m = 0 := by
          rcases hinv with hm | hn
          · exact hm
          · exfalso; rw [hn] at hlt; exact hlt hk'
        rw [hm]
        exact ih 0 n' (Or.inl rfl) h
    · by_cases hc : c = ch
      · simp only [runBound, if_pos hc, Bool.and_eq_true, decide_eq_true_eq] at h
        simp only [collapseAux, if_neg hc']
        simp only [runBound, if_pos hc, Bool.and_eq_true, decide_eq_true_eq]
        exact ⟨h.1, ih (m + 1) 0 (Or.inr rfl) h.2⟩
      · simp only [runBound, if_neg hc] at h
        simp only [collapseAux, if_neg hc']
        simp only [runBound, if_neg hc]
        exact ih 0 0 (Or.inl rfl) h

theorem runBound_append_left (ch : Char) (k : Nat) :
    ∀ (a b : List Char) (n : Nat), runBound ch k n (a ++ b) = true →
      runBound ch k n a = true := by
  intro a
  induction a with
  | nil => intro b n _; rfl
  | cons c t ih =>
    intro b n h
    by_cases hc : c = ch
    · simp only [List.cons_append, runBound, if_pos hc, Bool.and_eq_true] at h ⊢
      exact ⟨h.1, ih b (n + 1) h.2⟩
    · simp only [List.cons_append, runBound, if_neg hc] at h ⊢
      exact ih b 0 h

theorem runBound_of_none (ch : Char) (k : Nat) :
    ∀ (b : List Char), (∀ c ∈ b, c ≠ ch) → ∀ n, runBound ch k n b = true := by
  intro b
  induction b with
  | nil => intro _ n; rfl
  | cons c t ih =>
    intro hb n
    have hc : c ≠ ch := hb c (List.mem_cons_self c t)
    simp only [runBound, if_neg hc]
    exact ih (fun x hx => hb x (List.mem_cons_of_mem c hx)) 0

theorem runBound_append_none (ch : Char) (k : Nat) :
    ∀ (a b : List Char) (n : Nat), runBound ch k n a = true →
      (∀ c ∈ b, c ≠ ch) → runBound ch k n (a ++ b) = true := by
  intro a
  induction a with
  | nil =>
    intro b n _ hb
    simpa using runBound_of_none ch k b hb n
  | cons c t ih =>
    intro b n h hb
    by_cases hc : c = ch
    · simp only [List.cons_append, runBound, if_pos hc, Bool.and_eq_true] at h ⊢
      exact ⟨h.1, ih b (n + 1) h.2 hb⟩
    · simp only [List.cons_append, runBound, if_neg hc] at h ⊢
      exact ih b 0 h hb

theorem runBound_take (ch : Char) (k : Nat) (s : List Char) (j n : Nat)
    (h : runBound ch k n s = true) : runBound ch k n (s.take j) = true := by
  have := List.take_append_drop j s
  exact runBound_append_left ch k (s.take j) (s.drop j) n (by rw [this]; exact h)

theorem runBound_dropWhile (ch : Char) (k : Nat) (p : Char → Bool) :
    ∀ (s : List Char), runBound ch k 0 s = true →
      runBound ch k 0 (s.dropWhile p) = true := by
  intro s
  induction s with
  | nil => intro _; rfl
  | cons c t ih =>
    intro h
    by_cases hp : p c
    · rw [List.dropWhile_cons_of_pos hp]
      exact ih (runBound_tail ch k c t 0 h)
    · rw [List.dropWhile_cons_of_neg hp]
      exact h

/-- Stripping preserves bounded runs. -/
theorem runBound_pyStrip (ch : Char) (k : Nat) (s : List Char)
    (h : runBound ch k 0 s = true) : runBound ch k 0 (pyStrip s) = true := by
  unfold pyStrip
  have h1 : runBound ch k 0 (s.dropWhile isPySpace) = true :=
    runBound_dropWhile ch k isPySpace s h
  obtain ⟨w, hw, -⟩ := rstrip_decomp isPySpace (s.dropWhile isPySpace)
  rw [hw] at h1
  exact runBound_append_left ch k _ w 0 h1

/-! ### Mention-removal lemmas -/

theorem mentionRemoveF_irrel :
    ∀ (f g : Nat) (s : List Char), s.length < f → s.length < g →
      mentionRemoveF f s = mentionRemoveF g s := by
  intro f
  induction f with
  | zero => intro g s hf; exact absurd hf (Nat.not_lt_zero _)
  | succ f ih =>
    intro g s hf hg
    cases g with
    | zero => exact absurd hg (Nat.not_lt_zero _)
    | succ g =>
      cases s with
      | nil => rfl
      | cons c rest =>
        have hrf : rest.length < f := Nat.lt_of_succ_lt_succ (by simpa using hf)
        have hrg : rest.length < g := Nat.lt_of_succ_lt_succ (by simpa using hg)
        have hdf : (rest.dropWhile isWordChar).length < f :=
          Nat.lt_of_le_of_lt (length_dropWhile_le _ _) hrf
        have hdg : (rest.dropWhile isWordChar).length < g :=
          Nat.lt_of_le_of_lt (length_dropWhile_le _ _) hrg
        simp only [mentionRemoveF]
        by_cases hc : c = '@'
        · rw [if_pos hc, if_pos hc, ih g _ hdf hdg]
        · rw [if_neg hc, if_neg hc, ih g rest hrf hrg]

theorem mentionRemoveF_eq (f : Nat) (s : List Char) (h : s.length < f) :
    mentionRemoveF f s = mentionRemove s :=
  mentionRemoveF_irrel f (s.length + 1) s h (Nat.lt_succ_self _)

theorem mentionRemove_nil : mentionRemove [] = [] := rfl

theorem mentionRemove_cons (c : Char) (rest : List Char) :
    mentionRemove (c :: rest) =
      if c = '@' then
        (if isBotRun (rest.takeWhile isWordChar) then []
         else '@' :: rest.takeWhile isWordChar) ++
          mentionRemove (rest.dropWhile isWordChar)
      else c :: mentionRemove rest := by
  have h1 : mentionRemove (c :: rest) = mentionRemoveF (rest.length + 1 + 1) (c :: rest) := by
    unfold mentionRemove
    simp
  rw [h1]
  simp only [mentionRemoveF]
  rw [mentionRemoveF_eq (rest.length + 1) (rest.dropWhile isWordChar)
      (Nat.lt_succ_of_le (length_dropWhile_le _ _)),
    mentionRemoveF_eq (rest.length + 1) rest (Nat.lt_succ_self _)]

theorem hasMention_tail (c : Char) (t : List Char) (h : hasMention (c :: t) = false) :
    hasMention t = false := by
  simp only [hasMention, Bool.or_eq_false_iff] at h
  exact h.2

theorem hasMention_cons_ne (c : Char) (t : List Char) (hc : c ≠ '@') :
    hasMention (c :: t) = hasMention t := by
  simp [hasMention, hc]

theorem hasMention_dropWhile (p : Char → Bool) :
    ∀ s, hasMention s = false → hasMention (s.dropWhile p) = false := by
  intro s
  induction s with
  | nil => intro _; rfl
  | cons c t ih =>
    intro h
    by_cases hp : p c
    · rw [List.dropWhile_cons_of_pos hp]; exact ih (hasMention_tail c t h)
    · rw [List.dropWhile_cons_of_neg hp]; exact h

theorem hasMention_append_noAt :
    ∀ (a b : List Char), (∀ c ∈ a, c ≠ '@') →
      hasMention (a ++ b) = hasMention b := by
  intro a
  induction a with
  | nil => intro b _; rfl
  | cons c t ih =>
    intro b ha
    have hc : c ≠ '@' := ha c (List.mem_cons_self c t)
    rw [List.cons_append, hasMention_cons_ne c (t ++ b) hc]
    exact ih b (fun x hx => ha x (List.mem_cons_of_mem c hx))

theorem takeWhile_append_fail (p : α → Bool) :
    ∀ (a b : List α), (∀ c ∈ b, p c = false) →
      (a ++ b).takeWhile p = a.takeWhile p := by
  intro a
  induction a with
  | nil =>
    intro b hb
    simp only [List.nil_append, List.takeWhile_nil]
    cases b with
    | nil => rfl
    | cons c t =>
      exact List.takeWhile_cons_of_neg (by simp [hb c (List.mem_cons_self c t)])
  | cons c t ih =>
    intro b hb
    by_cases hp : p c
    · rw [List.cons_append, List.takeWhile_cons_of_pos hp,
        List.takeWhile_cons_of_pos hp, ih b hb]
    · rw [List.cons_append, List.takeWhile_cons_of_neg hp,
        List.takeWhile_cons_of_neg hp]

theorem takeWhile_nil_of_head (p : α → Bool) (l : List α)
    (h : ∀ c t, l = c :: t → p c = false) : l.takeWhile p = [] := by
  cases l with
  | nil => rfl
  | cons c t => exact List.takeWhile_cons_of_neg (by simp [h c t rfl])

/-- Heads produced by the remover stay non-word when the input head was
non-word (a deletion only ever exposes a non-word character). -/
theorem mentionRemove_headNW :
    ∀ (N : Nat) (s : List Char), s.length ≤ N →
      (∀ c t, s = c :: t → isWordChar c = false) →
      ∀ c t, mentionRemove s = c :: t → isWordChar c = false := by
  intro N
  induction N with
  | zero =>
    intro s hlen _
    have hs : s = [] := List.eq_nil_of_length_eq_zero (Nat.le_zero.mp hlen)
    subst hs
    intro c t h
    rw [mentionRemove_nil] at h
    exact absurd h (List.cons_ne_nil c t).symm
  | succ N ih =>
    intro s hlen hhead
    cases s with
    | nil =>
      intro c t h
      rw [mentionRemove_nil] at h
      exact absurd h (List.cons_ne_nil c t).symm
    | cons x rest =>
      have hrest : rest.length ≤ N := by simpa using hlen
      have hd : (rest.dropWhile isWordChar).length ≤ N :=
        Nat.le_trans (length_dropWhile_le _ _) hrest
      have hdhead : ∀ c t, rest.dropWhile isWordChar = c :: t → isWordChar c = false :=
        fun c t h => dropWhile_head_false isWordChar rest c t h
      rw [mentionRemove_cons]
      by_cases hx : x = '@'
      · rw [if_pos hx]
        by_cases hbot : isBotRun (rest.takeWhile isWordChar)
        · rw [if_pos hbot, List.nil_append]
          exact ih (rest.dropWhile isWordChar) hd hdhead
        · rw [if_neg hbot]
          intro c t h
          have : c = '@' := (List.cons.injEq _ _ _ _).mp h |>.1.symm
          rw [this]
          decide
      · rw [if_neg hx]
        intro c t h
        have hcx : c = x := ((List.cons.injEq _ _ _ _).mp h).1.symm
        rw [hcx]
        exact hhead x rest rfl

theorem word_ne_at (c : Char) (h : isWordChar c = true) : c ≠ '@' := by
  intro he
  rw [he] at h
  simp [isWordChar] at h

/-- The remover's output contains no mention. -/
theorem hasMention_mentionRemove_aux :
    ∀ (N : Nat) (s : List Char), s.length ≤ N →
      hasMention (mentionRemove s) = false := by
  intro N
  induction N with
  | zero =>
    intro s hlen
    have hs : s = [] := List.eq_nil_of_length_eq_zero (Nat.le_zero.mp hlen)
    subst hs
    rfl
  | succ N ih =>
    intro s hlen
    cases s with
    | nil => rfl
    | cons x rest =>
      have hrest : rest.length ≤ N := by simpa using hlen
      have hd : (rest.dropWhile isWordChar).length ≤ N :=
        Nat.le_trans (length_dropWhile_le _ _) hrest
      rw [mentionRemove_cons]
      by_cases hx : x = '@'
      · rw [if_pos hx]
        by_cases hbot : isBotRun (rest.takeWhile isWordChar)
        · rw [if_pos hbot, List.nil_append]
          exact ih (rest.dropWhile isWordChar) hd
        · rw [if_neg hbot, List.cons_append]
          have hYhead : ∀ c t, mentionRemove (rest.dropWhile isWordChar) = c :: t →
              isWordChar c = false :=
            mentionRemove_headNW N (rest.dropWhile isWordChar) hd
              (fun c t h => dropWhile_head_false isWordChar rest c t h)
          have hrun : ∀ c ∈ rest.takeWhile isWordChar, isWordChar c = true :=
            fun c hc => List.mem_takeWhile_imp hc
          have htw : ((rest.takeWhile isWordChar ++
              mentionRemove (rest.dropWhile isWordChar)).takeWhile isWordChar) =
              rest.takeWhile isWordChar := by
            rw [List.takeWhile_append_of_pos hrun,
              takeWhile_nil_of_head isWordChar _ hYhead, List.append_nil]
          have hApp : hasMention (rest.takeWhile isWordChar ++
              mentionRemove (rest.dropWhile isWordChar)) =
              hasMention (mentionRemove (rest.dropWhile isWordChar)) :=
            hasMention_append_noAt _ _ (fun c hc => word_ne_at c (hrun c hc))
          simp only [hasMention, htw, hApp]
          rw [ih (rest.dropWhile isWordChar) hd]
          simp [hbot]
      · rw [if_neg hx]
        simp only [hasMention]
        rw [ih rest hrest]
        simp [hx]

theorem hasMention_mentionRemove (s : List Char) :
    hasMention (mentionRemove s) = false :=
  hasMention_mentionRemove_aux s.length s (Nat.le_refl _)

/-- The remover is the identity on mention-free strings. -/
theorem mentionRemove_eq_self_aux :
    ∀ (N : Nat) (s : List Char), s.length ≤ N → hasMention s = false →
      mentionRemove s = s := by
  intro N
  induction N with
  | zero =>
    intro s hlen _
    have hs : s = [] := List.eq_nil_of_length_eq_zero (Nat.le_zero.mp hlen)
    subst hs
    rfl
  | succ N ih =>
    intro s hlen h
    cases s with
    | nil => rfl
    | cons x rest =>
      have hrest : rest.length ≤ N := by simpa using hlen
      have htl : hasMention rest = false := hasMention_tail x rest h
      rw [mentionRemove_cons]
      by_cases hx : x = '@'
      · rw [if_pos hx]
        have hbot : isBotRun (rest.takeWhile isWordChar) = false := by
          by_contra hb
          have hb' : isBotRun (rest.takeWhile isWordChar) = true := by
            revert hb; cases isBotRun (rest.takeWhile isWordChar) <;> simp
          rw [hx] at h
          simp [hasMention, hb'] at h
        rw [if_neg (by simp [hbot])]
        have hdd : mentionRemove (rest.dropWhile isWordChar) = rest.dropWhile isWordChar :=
          ih (rest.dropWhile isWordChar)
            (Nat.le_trans (length_dropWhile_le _ _) hrest)
            (hasMention_dropWhile isWordChar rest htl)
        rw [hdd, List.cons_append, List.takeWhile_append_dropWhile, hx]
      · rw [if_neg hx, ih rest hrest htl]

theorem mentionRemove_eq_self (s : List Char) (h : hasMention s = false) :
    mentionRemove s = s :=
  mentionRemove_eq_self_aux s.length s (Nat.le_refl _) h

/-- Collapsing whitespace runs never creates a mention: the collapse keeps
at least one copy per run, so word runs and their `@` contexts are
unchanged. -/
theorem takeWhile_collapseAux (ch : Char) (k : Nat)
    (hw : isWordChar ch = false) (hk : 1 ≤ k) :
    ∀ (s : List Char), (collapseAux ch k 0 s).takeWhile isWordChar =
      s.takeWhile isWordChar := by
  intro s
  induction s with
  | nil => rfl
  | cons c rest ih =>
    by_cases hcw : isWordChar c
    · have hcch : c ≠ ch := by
        intro he; rw [he] at hcw; rw [hw] at hcw; exact Bool.false_ne_true hcw
      simp only [collapseAux, if_neg hcch]
      rw [List.takeWhile_cons_of_pos hcw, List.takeWhile_cons_of_pos hcw, ih]
    · by_cases hcch : c = ch
      · simp only [collapseAux, if_pos hcch]
        rw [if_pos (show 0 < k from hk)]
        rw [takeWhile_nil_of_head, takeWhile_nil_of_head]
        · intro a t h
          have : a = c := ((List.cons.injEq _ _ _ _).mp h).1.symm
          rw [this]; simpa using hcw
        · intro a t h
          have : a = c := ((List.cons.injEq _ _ _ _).mp h).1.symm
          rw [this]; simpa using hcw
      · simp only [collapseAux, if_neg hcch]
        rw [takeWhile_nil_of_head, takeWhile_nil_of_head]
        · intro a t h
          have : a = c := ((List.cons.injEq _ _ _ _).mp h).1.symm
          rw [this]; simpa using hcw
        · intro a t h
          have : a = c := ((List.cons.injEq _ _ _ _).mp h).1.symm
          rw [this]; simpa using hcw

theorem hasMention_collapseAux (ch : Char) (k : Nat)
    (hw : isWordChar ch = false) (hat : ch ≠ '@') (hk : 1 ≤ k) :
    ∀ (s : List Char) (n : Nat), hasMention s = false →
      hasMention (collapseAux ch k n s) = false := by
  intro s
  induction s with
  | nil => intro n _; rfl
  | cons c rest ih =>
    intro n h
    have htl : hasMention rest = false := hasMention_tail c rest h
    by_cases hcch : c = ch
    · have hcat : c ≠ '@' := by rw [hcch]; exact hat
      by_cases hlt : n < k
      · simp only [collapseAux, if_pos hcch, if_pos hlt]
        rw [hasMention_cons_ne c _ hcat]
        exact ih (n + 1) htl
      · simp only [collapseAux, if_pos hcch, if_neg hlt]
        exact ih n htl
    · by_cases hcat : c = '@'
      · simp only [collapseAux, if_neg hcch]
        have hbot : isBotRun (rest.takeWhile isWordChar) = false := by
          by_contra hb
          have hb' : isBotRun (rest.takeWhile isWordChar) = true := by
            revert hb; cases isBotRun (rest.takeWhile isWordChar) <;> simp
          rw [hcat] at h
          simp [hasMention, hb'] at h
        simp only [hasMention]
        rw [takeWhile_collapseAux ch k hw hk rest, hbot, ih 0 htl]
        simp
      · simp only [collapseAux, if_neg hcch]
        rw [hasMention_cons_ne c _ hcat]
        exact ih 0 htl

theorem isPySpace_not_word (c : Char) (h : isPySpace c = true) :
    isWordChar c = false := by
  simp only [isPySpace, Bool.or_eq_true, decide_eq_true_eq] at h
  rcases h with ((((h | h) | h) | h) | h) | h <;> subst h <;> decide

theorem hasMention_append_right :
    ∀ (a b : List Char), hasMention (a ++ b) = false →
      (∀ c ∈ b, isWordChar c = false) → hasMention a = false := by
  intro a
  induction a with
  | nil => intro b _ _; rfl
  | cons c t ih =>
    intro b h hb
    rw [List.cons_append] at h
    have htw : (t ++ b).takeWhile isWordChar = t.takeWhile isWordChar :=
      takeWhile_append_fail isWordChar t b hb
    simp only [hasMention, Bool.or_eq_false_iff] at h ⊢
    refine ⟨?_, ih b h.2 hb⟩
    have := h.1
    rw [htw] at this
    exact this

theorem hasMention_pyStrip (s : List Char) (h : hasMention s = false) :
    hasMention (pyStrip s) = false := by
  have h1 : hasMention (s.dropWhile isPySpace) = false :=
    hasMention_dropWhile isPySpace s h
  obtain ⟨w, hw, hws⟩ := rstrip_decomp isPySpace (s.dropWhile isPySpace)
  rw [hw] at h1
  exact hasMention_append_right _ w h1
    (fun c hc => isPySpace_not_word c (hws c hc))

/-! ### clean_text structure lemmas -/

theorem clean_text_eq (t : List Char) :
    clean_text t =
      pyStrip (if MAX_MSG_LENGTH < (spaceCollapse (nlCollapse (mentionRemove t))).length
               then (spaceCollapse (nlCollapse (mentionRemove t))).take MAX_MSG_LENGTH ++
                 ['.', '.', '.']
               else spaceCollapse (nlCollapse (mentionRemove t))) := rfl

/-- Fixed-point characterization: a mention-free, collapsed, short, stripped
string is unchanged by `clean_text`. -/
theorem clean_text_fixed (y : List Char)
    (hm : hasMention y = false)
    (hn : runBound '\n' 2 0 y = true)
    (hs : runBound ' ' 1 0 y = true)
    (hlen : y.length ≤ MAX_MSG_LENGTH)
    (hstrip : pyStrip y = y) :
    clean_text y = y := by
  rw [clean_text_eq]
  rw [mentionRemove_eq_self y hm]
  rw [show nlCollapse y = y from collapseAux_eq_self '\n' 2 y 0 hn]
  rw [show spaceCollapse y = y from collapseAux_eq_self ' ' 1 y 0 hs]
  rw [if_neg (Nat.not_lt.mpr hlen)]
  exact hstrip

theorem hasMention_clean_text (t : List Char)
    (h : (spaceCollapse (nlCollapse (mentionRemove t))).length ≤ MAX_MSG_LENGTH) :
    hasMention (clean_text t) = false := by
  rw [clean_text_eq, if_neg (Nat.not_lt.mpr h)]
  apply hasMention_pyStrip
  have h1 : hasMention (mentionRemove t) = false := hasMention_mentionRemove t
  have h2 : hasMention (nlCollapse (mentionRemove t)) = false :=
    hasMention_collapseAux '\n' 2 (by decide) (by decide) (by decide) _ 0 h1
  exact hasMention_collapseAux ' ' 1 (by decide) (by decide) (by decide) _ 0 h2

theorem runBound_space_clean_text (t : List Char) :
    runBound ' ' 1 0 (clean_text t) = true := by
  rw [clean_text_eq]
  apply runBound_pyStrip
  have h3 : runBound ' ' 1 0 (spaceCollapse (nlCollapse (mentionRemove t))) = true :=
    runBound_collapseAux ' ' 1 _ 0 (by decide)
  by_cases hc : MAX_MSG_LENGTH < (spaceCollapse (nlCollapse (mentionRemove t))).length
  · rw [if_pos hc]
    exact runBound_append_none ' ' 1 _ _ 0
      (runBound_take ' ' 1 _ MAX_MSG_LENGTH 0 h3) (by decide)
  · rw [if_neg hc]; exact h3

theorem runBound_nl_clean_text (t : List Char) :
    runBound '\n' 2 0 (clean_text t) = true := by
  rw [clean_text_eq]
  apply runBound_pyStrip
  have h2 : runBound '\n' 2 0 (nlCollapse (mentionRemove t)) = true :=
    runBound_collapseAux '\n' 2 _ 0 (by decide)
  have h3 : runBound '\n' 2 0 (spaceCollapse (nlCollapse (mentionRemove t))) = true :=
    runBound_collapseAux_other '\n' ' ' 2 1 (by decide) (by decide) _ 0 0
      (Or.inl rfl) h2
  by_cases hc : MAX_MSG_LENGTH < (spaceCollapse (nlCollapse (mentionRemove t))).length
  · rw [if_pos hc]
    exact runBound_append_none '\n' 2 _ _ 0
      (runBound_take '\n' 2 _ MAX_MSG_LENGTH 0 h3) (by decide)
  · rw [if_neg hc]; exact h3

theorem clean_text_length_le (t : List Char) :
    (clean_text t).length ≤ MAX_MSG_LENGTH + 3 := by
  rw [clean_text_eq]
  refine Nat.le_trans (pyStrip_length_le _) ?_
  by_cases hc : MAX_MSG_LENGTH < (spaceCollapse (nlCollapse (mentionRemove t))).length
  · rw [if_pos hc]
    rw [List.length_append, List.length_take]
    simp only [List.length_cons, List.length_nil]
    omega
  · rw [if_neg hc]
    omega

/-- Without truncation, the cleaned string has every fixed-point property. -/
theorem clean_text_no_trunc_props (t : List Char)
    (h : (spaceCollapse (nlCollapse (mentionRemove t))).length ≤ MAX_MSG_LENGTH) :
    hasMention (clean_text t) = false ∧
    runBound '\n' 2 0 (clean_text t) = true ∧
    runBound ' ' 1 0 (clean_text t) = true ∧
    (clean_text t).length ≤ MAX_MSG_LENGTH ∧
    pyStrip (clean_text t) = clean_text t := by
  have heq : clean_text t = pyStrip (spaceCollapse (nlCollapse (mentionRemove t))) := by
    rw [clean_text_eq, if_neg (Nat.not_lt.mpr h)]
  refine ⟨hasMention_clean_text t h, runBound_nl_clean_text t,
    runBound_space_clean_text t, ?_, ?_⟩
  · rw [heq]
    exact Nat.le_trans (pyStrip_length_le _) h
  · rw [heq]
    exact pyStrip_idem _

/-! ### Claim C6: idempotence of the Text Normalizer -/

/-- C6 (counterexample): `clean_text` is not idempotent.  On 495 `a`s
followed by `@xbotXY` the first pass truncates right after `@xbot`, whose
run now ends at the appended ellipsis, so the second pass removes it as a
bot mention — a difference not covered by the claim's truncation proviso. -/
theorem c6_clean_text_idem_cex :
    clean_text (clean_text (List.replicate 495 'a' ++ "@xbotXY".toList)) ≠
      clean_text (List.replicate 495 'a' ++ "@xbotXY".toList) := by decide

/-- C6 (amended): `clean_text` is idempotent on every input it does not
truncate, i.e. whenever the mention-stripped, collapsed text is within
`MAX_MSG_LENGTH`; under truncation a second application may differ (it can
remove a bot mention exposed at the cut). -/
theorem c6_clean_text_idem (t : List Char)
    (h : (spaceCollapse (nlCollapse (mentionRemove t))).length ≤ MAX_MSG_LENGTH) :
    clean_text (clean_text t) = clean_text t := by
  obtain ⟨hm, hn, hs, hlen, hstrip⟩ := clean_text_no_trunc_props t h
  exact clean_text_fixed (clean_text t) hm hn hs hlen hstrip

/-- C6 (witness): the amended theorem applied to a concrete short input. -/
theorem c6_clean_text_idem_witness :
    (spaceCollapse (nlCollapse (mentionRemove "a  b\n\n\n\nc @someonebot !".toList))).length ≤
      MAX_MSG_LENGTH ∧
    clean_text (clean_text "a  b\n\n\n\nc @someonebot !".toList) =
      clean_text "a  b\n\n\n\nc @someonebot !".toList :=
  ⟨by decide, c6_clean_text_idem _ (by decide)⟩

/-! ### Claim C3: shape of cleaned output -/

theorem scrapeFilter_mem :
    ∀ (msgs : List Msg) (seenKeys : List (List Char)) (s : List Char),
      s ∈ scrapeFilter msgs seenKeys →
      s ≠ [] ∧ ∃ m ∈ msgs, MIN_MSG_LENGTH ≤ m.text.length ∧ s = clean_text m.text := by
  intro msgs
  induction msgs with
  | nil => intro seen s h; simp [scrapeFilter] at h
  | cons m rest ih =>
    intro seen s h
    simp only [scrapeFilter] at h
    by_cases h1 : m.text.length < MIN_MSG_LENGTH
    · rw [if_pos h1] at h
      obtain ⟨hne, m', hm', hlen, heq⟩ := ih seen s h
      exact ⟨hne, m', List.mem_cons_of_mem m hm', hlen, heq⟩
    · rw [if_neg h1] at h
      by_cases h2 : pubKey m.text ∈ seen
      · rw [if_pos h2] at h
        obtain ⟨hne, m', hm', hlen, heq⟩ := ih seen s h
        exact ⟨hne, m', List.mem_cons_of_mem m hm', hlen, heq⟩
      · rw [if_neg h2] at h
        by_cases h3 : clean_text m.text = []
        · rw [if_pos h3] at h
          obtain ⟨hne, m', hm', hlen, heq⟩ := ih _ s h
          exact ⟨hne, m', List.mem_cons_of_mem m hm', hlen, heq⟩
        · rw [if_neg h3] at h
          rcases List.mem_cons.mp h with hs | hs
          · exact ⟨hs ▸ h3, m, List.mem_cons_self m rest, Nat.not_lt.mp h1, hs⟩
          · obtain ⟨hne, m', hm', hlen, heq⟩ := ih _ s hs
            exact ⟨hne, m', List.mem_cons_of_mem m hm', hlen, heq⟩

theorem clientLoop_mem :
    ∀ (msgs : List TLMessage) (seen acc : List (List Char)) (total : Nat)
      (cutoff : Int) (L : Nat) (s : List Char),
      s ∈ (clientLoop cutoff L msgs seen acc total).1 →
      s ∈ acc ∨ (s ≠ [] ∧ ∃ m ∈ msgs, ∃ t, extract_text m = some t ∧
        MIN_MSG_LENGTH ≤ t.length ∧ s = clean_text t) := by
  intro msgs
  induction msgs with
  | nil =>
    intro seen acc total cutoff L s h
    exact Or.inl (by simpa [clientLoop] using h)
  | cons m rest ih =>
    intro seen acc total cutoff L s h
    simp only [clientLoop] at h
    have lift : s ∈ acc ∨ (s ≠ [] ∧ ∃ m' ∈ rest, ∃ t, extract_text m' = some t ∧
        MIN_MSG_LENGTH ≤ t.length ∧ s = clean_text t) →
        s ∈ acc ∨ (s ≠ [] ∧ ∃ m' ∈ m :: rest, ∃ t, extract_text m' = some t ∧
        MIN_MSG_LENGTH ≤ t.length ∧ s = clean_text t) := by
      rintro (hin | ⟨hne, m', hm', t, het, hlt, heq⟩)
      · exact Or.inl hin
      · exact Or.inr ⟨hne, m', List.mem_cons_of_mem m hm', t, het, hlt, heq⟩
    by_cases hd : m.date < cutoff
    · rw [if_pos hd] at h
      exact Or.inl h
    · rw [if_neg hd] at h
      by_cases hn : is_noise m
      · rw [if_pos hn] at h
        exact lift (ih seen acc total cutoff L s h)
      · rw [if_neg hn] at h
        cases hext : extract_text m with
        | none =>
          simp only [hext] at h
          exact lift (ih seen acc total cutoff L s h)
        | some t =>
          simp only [hext] at h
          by_cases hlt : t.length < MIN_MSG_LENGTH
          · rw [if_pos hlt] at h
            exact lift (ih seen acc total cutoff L s h)
          · rw [if_neg hlt] at h
            by_cases hk : clientKey t ∈ seen
            · rw [if_pos hk] at h
              exact lift (ih seen acc total cutoff L s h)
            · rw [if_neg hk] at h
              by_cases hcl : clean_text t = []
              · rw [if_pos hcl] at h
                exact lift (ih _ acc total cutoff L s h)
              · rw [if_neg hcl] at h
                by_cases hb : L < total + (clean_text t).length
                · rw [if_pos hb] at h
                  exact Or.inl h
                · rw [if_neg hb] at h
                  rcases ih _ _ _ cutoff L s h with hin | hprops
                  · rcases List.mem_append.mp hin with ha | hone
                    · exact Or.inl ha
                    · have hs : s = clean_text t := by simpa using hone
                      exact Or.inr ⟨hs ▸ hcl, m, List.mem_cons_self m rest, t,
                        hext, Nat.not_lt.mp hlt, hs⟩
                  · exact lift (Or.inr hprops)

/-- C3 (counterexample): a 501-character raw message passes the filter and
its cleaned form, placed in the channel digest, has length 503, exceeding
the maximum message length of 500. -/
theorem c3_clean_shape_cex :
    ∃ s ∈ scrapeFilter [({ id := 1, date := 5, text := List.replicate 501 'a' } : Msg)] [],
      MAX_MSG_LENGTH < s.length :=
  ⟨List.replicate 500 'a' ++ ['.', '.', '.'], by decide, by decide⟩

/-- C3 (amended): every cleaned message has length at most
`MAX_MSG_LENGTH + 3` (truncation appends a three-character ellipsis before
the final strip), contains no run of two or more spaces and no run of three
or more newlines; every string placed into a channel digest is non-empty
and is the cleaning of a raw text whose pre-cleaning length was at least
`MIN_MSG_LENGTH` (the cleaned string itself may be shorter), in both the
scrape and the client variant. -/
theorem c3_clean_shape :
    (∀ t : List Char, (clean_text t).length ≤ MAX_MSG_LENGTH + 3 ∧
       runBound ' ' 1 0 (clean_text t) = true ∧
       runBound '\n' 2 0 (clean_text t) = true) ∧
    (∀ msgs seenKeys s, s ∈ scrapeFilter msgs seenKeys →
       s ≠ [] ∧ ∃ m ∈ msgs, MIN_MSG_LENGTH ≤ m.text.length ∧ s = clean_text m.text) ∧
    (∀ cutoff L msgs seen acc total s, s ∈ (clientLoop cutoff L msgs seen acc total).1 →
       s ∈ acc ∨ (s ≠ [] ∧ ∃ m ∈ msgs, ∃ t, extract_text m = some t ∧
         MIN_MSG_LENGTH ≤ t.length ∧ s = clean_text t)) :=
  ⟨fun t => ⟨clean_text_length_le t, runBound_space_clean_text t, runBound_nl_clean_text t⟩,
   fun msgs seen s h => scrapeFilter_mem msgs seen s h,
   fun cutoff L msgs seen acc total s h => clientLoop_mem msgs seen acc total cutoff L s h⟩

/-- C3 (witness): the amended theorem applied to a concrete digest entry. -/
theorem c3_clean_shape_witness :
    clean_text "hello world this is fine".toList ∈
      scrapeFilter [({ id := 1, date := 5, text := "hello world this is fine".toList } : Msg)]
        ([] : List (List Char)) ∧
    clean_text "hello world this is fine".toList ≠ [] :=
  ⟨by decide,
   (c3_clean_shape.2.1
     [({ id := 1, date := 5, text := "hello world this is fine".toList } : Msg)]
     ([] : List (List Char)) (clean_text "hello world this is fine".toList)
     (by decide)).1⟩

/-! ### Budget lemmas (claims C1 and C2) -/

theorem sumLens_nil : sumLens [] = 0 := rfl

theorem sumLens_cons (m : List Char) (l : List (List Char)) :
    sumLens (m :: l) = m.length + sumLens l := by simp [sumLens]

theorem sumLens_append (a b : List (List Char)) :
    sumLens (a ++ b) = sumLens a + sumLens b := by simp [sumLens]

theorem sumVals_nil : sumVals [] = 0 := rfl

theorem sumVals_cons (p : List Char × List (List Char))
    (d : List (List Char × List (List Char))) :
    sumVals (p :: d) = sumLens p.2 + sumVals d := by simp [sumVals]

theorem sumVals_append (a b : List (List Char × List (List Char))) :
    sumVals (a ++ b) = sumVals a + sumVals b := by simp [sumVals]

theorem applyBudget_spec (L : Nat) :
    ∀ (msgs : List (List Char)) (total : Nat),
      (applyBudget L total msgs).2 = total + sumLens (applyBudget L total msgs).1 ∧
      (total ≤ L → (applyBudget L total msgs).2 ≤ L) := by
  intro msgs
  induction msgs with
  | nil => intro total; simp [applyBudget, sumLens_nil]
  | cons m ms ih =>
    intro total
    by_cases h : L < total + m.length
    · simp [applyBudget, if_pos h, sumLens_nil]
    · simp only [applyBudget, if_neg h]
      refine ⟨?_, fun _ => (ih (total + m.length)).2 (Nat.not_lt.mp h)⟩
      have h1 := (ih (total + m.length)).1
      rw [sumLens_cons]
      omega

theorem dictInsert_map_eq_self (k : List Char) (v : List (List Char)) :
    ∀ (d : List (List Char × List (List Char))), (∀ q ∈ d, q.1 ≠ k) →
      d.map (fun p => if p.1 = k then (k, v) else p) = d := by
  intro d
  induction d with
  | nil => intro _; rfl
  | cons p d' ih =>
    intro h
    rw [List.map_cons, if_neg (h p (List.mem_cons_self p d')),
      ih (fun q hq => h q (List.mem_cons_of_mem p hq))]

theorem dictInsert_fst_nodup (k : List Char) (v : List (List Char))
    (d : List (List Char × List (List Char)))
    (h : (d.map Prod.fst).Nodup) : ((dictInsert k v d).map Prod.fst).Nodup := by
  unfold dictInsert
  by_cases ha : d.any (fun p => p.1 = k)
  · rw [if_pos ha]
    have : (d.map (fun p => if p.1 = k then (k, v) else p)).map Prod.fst = d.map Prod.fst := by
      rw [List.map_map]
      apply List.map_congr_left
      intro p _
      by_cases hp : p.1 = k
      · simp [hp]
      · simp [hp]
    rw [this]
    exact h
  · rw [if_neg ha, List.map_append]
    rw [List.nodup_append]
    refine ⟨h, List.nodup_singleton k, ?_⟩
    intro a hain hk
    simp only [List.map_cons, List.map_nil, List.mem_singleton] at hk
    subst hk
    rcases List.mem_map.mp hain with ⟨q, hq, hqk⟩
    exact absurd (List.any_eq_true.mpr ⟨q, hq, by simp [hqk]⟩) ha

theorem dictInsert_sumVals (k : List Char) (v : List (List Char)) :
    ∀ (d : List (List Char × List (List Char))), (d.map Prod.fst).Nodup →
      sumVals (dictInsert k v d) ≤ sumVals d + sumLens v := by
  intro d
  induction d with
  | nil =>
    intro _
    simp [dictInsert, sumVals_append, sumVals_cons, sumVals_nil]
  | cons p d' ih =>
    intro hnd
    have hnd' : (d'.map Prod.fst).Nodup := (List.nodup_cons.mp (by simpa using hnd)).2
    by_cases hp : p.1 = k
    · have ha : (p :: d').any (fun q => q.1 = k) = true :=
        List.any_eq_true.mpr ⟨p, List.mem_cons_self p d', by simp [hp]⟩
      unfold dictInsert
      rw [if_pos ha, List.map_cons, if_pos hp]
      have hnotin : ∀ q ∈ d', q.1 ≠ k := by
        intro q hq he
        have hpmem : p.1 ∈ d'.map Prod.fst := by
          rw [hp, ← he]; exact List.mem_map.mpr ⟨q, hq, rfl⟩
        exact (List.nodup_cons.mp (by simpa using hnd)).1 hpmem
      rw [dictInsert_map_eq_self k v d' hnotin, sumVals_cons, sumVals_cons]
      have hkv : sumLens (k, v).2 = sumLens v := rfl
      omega
    · by_cases ha' : d'.any (fun q => q.1 = k)
      · have ha : (p :: d').any (fun q => q.1 = k) = true := by
          simp only [List.any_cons, ha', Bool.or_true]
        unfold dictInsert
        rw [if_pos ha, List.map_cons, if_neg hp]
        have hIH := ih hnd'
        unfold dictInsert at hIH
        rw [if_pos ha'] at hIH
        rw [sumVals_cons, sumVals_cons]
        omega
      · have ha : (p :: d').any (fun q => q.1 = k) = false := by
          simp only [List.any_cons, ha', Bool.or_false]
          simpa using hp
        unfold dictInsert
        rw [if_neg (by simp [ha])]
        rw [sumVals_append, sumVals_cons, sumVals_cons, sumVals_nil]
        have hkv : sumLens (k, v).2 = sumLens v := rfl
        omega

theorem collectPubGo_bound (L : Nat) (scrape : List Char → List (List Char)) :
    ∀ (chs : List (List Char)) (total : Nat)
      (res : List (List Char × List (List Char))),
      total ≤ L → sumVals res ≤ total → (res.map Prod.fst).Nodup →
      sumVals (collectPubGo L scrape chs total res).1 ≤ L ∧
      (collectPubGo L scrape chs total res).2 ≤ L := by
  intro chs
  induction chs with
  | nil =>
    intro total res h1 h2 _
    exact ⟨Nat.le_trans h2 h1, h1⟩
  | cons raw rest ih =>
    intro total res h1 h2 h3
    by_cases hch : normChannel raw = []
    · simp only [collectPubGo, if_pos hch]
      exact ih total res h1 h2 h3
    · simp only [collectPubGo, if_neg hch]
      have hsum := (applyBudget_spec L (scrape (normChannel raw)) total).1
      have hble := (applyBudget_spec L (scrape (normChannel raw)) total).2 h1
      have htot : total ≤ (applyBudget L total (scrape (normChannel raw))).2 := by omega
      by_cases hemp : (applyBudget L total (scrape (normChannel raw))).1 = []
      · rw [if_pos hemp]
        rw [if_neg (Nat.not_lt.mpr hble)]
        exact ih _ res hble (Nat.le_trans h2 htot) h3
      · rw [if_neg hemp]
        rw [if_neg (Nat.not_lt.mpr hble)]
        refine ih _ _ hble ?_ ?_
        · calc sumVals (dictInsert (normChannel raw)
              (applyBudget L total (scrape (normChannel raw))).1 res)
              ≤ sumVals res + sumLens (applyBudget L total (scrape (normChannel raw))).1 :=
                dictInsert_sumVals _ _ res h3
            _ ≤ total + sumLens (applyBudget L total (scrape (normChannel raw))).1 := by omega
            _ = (applyBudget L total (scrape (normChannel raw))).2 := hsum.symm
        · exact dictInsert_fst_nodup _ _ res h3

theorem clientLoop_cons_break (cutoff : Int) (L : Nat) (m : TLMessage)
    (rest : List TLMessage) (seen acc : List (List Char)) (total : Nat)
    (hd : m.date < cutoff) :
    clientLoop cutoff L (m :: rest) seen acc total = (acc, total) := by
  simp only [clientLoop, if_pos hd]

theorem clientLoop_cons_noise (cutoff : Int) (L : Nat) (m : TLMessage)
    (rest : List TLMessage) (seen acc : List (List Char)) (total : Nat)
    (hd : ¬ m.date < cutoff) (hn : is_noise m = true) :
    clientLoop cutoff L (m :: rest) seen acc total =
      clientLoop cutoff L rest seen acc total := by
  simp only [clientLoop, if_neg hd, if_pos hn]

theorem clientLoop_cons_none (cutoff : Int) (L : Nat) (m : TLMessage)
    (rest : List TLMessage) (seen acc : List (List Char)) (total : Nat)
    (hd : ¬ m.date < cutoff) (hn : is_noise m = false)
    (hext : extract_text m = none) :
    clientLoop cutoff L (m :: rest) seen acc total =
      clientLoop cutoff L rest seen acc total := by
  simp only [clientLoop, if_neg hd, if_neg (by simp [hn] : ¬ is_noise m = true), hext]

theorem clientLoop_cons_some (cutoff : Int) (L : Nat) (m : TLMessage)
    (rest : List TLMessage) (seen acc : List (List Char)) (total : Nat)
    (t : List Char) (hd : ¬ m.date < cutoff) (hn : is_noise m = false)
    (hext : extract_text m = some t) :
    clientLoop cutoff L (m :: rest) seen acc total =
      (if t.length < MIN_MSG_LENGTH then clientLoop cutoff L rest seen acc total
       else if clientKey t ∈ seen then clientLoop cutoff L rest seen acc total
       else if clean_text t = [] then clientLoop cutoff L rest (clientKey t :: seen) acc total
       else if L < total + (clean_text t).length then (acc, total)
       else clientLoop cutoff L rest (clientKey t :: seen) (acc ++ [clean_text t])
         (total + (clean_text t).length)) := by
  simp only [clientLoop, if_neg hd, if_neg (by simp [hn] : ¬ is_noise m = true), hext]

theorem clientLoop_spec (cutoff : Int) (L : Nat) :
    ∀ (msgs : List TLMessage) (seen acc : List (List Char)) (total : Nat),
      ∃ added, (clientLoop cutoff L msgs seen acc total).1 = acc ++ added ∧
        (clientLoop cutoff L msgs seen acc total).2 = total + sumLens added ∧
        (total ≤ L → (clientLoop cutoff L msgs seen acc total).2 ≤ L) := by
  intro msgs
  induction msgs with
  | nil =>
    intro seen acc total
    exact ⟨[], by simp [clientLoop, sumLens_nil]⟩
  | cons m rest ih =>
    intro seen acc total
    by_cases hd : m.date < cutoff
    · rw [clientLoop_cons_break cutoff L m rest seen acc total hd]
      exact ⟨[], by simp [sumLens_nil]⟩
    · by_cases hn : is_noise m
      · rw [clientLoop_cons_noise cutoff L m rest seen acc total hd hn]
        exact ih seen acc total
      · have hn' : is_noise m = false := by simpa using hn
        cases hext : extract_text m with
        | none =>
          rw [clientLoop_cons_none cutoff L m rest seen acc total hd hn' hext]
          exact ih seen acc total
        | some t =>
          rw [clientLoop_cons_some cutoff L m rest seen acc total t hd hn' hext]
          by_cases hlt : t.length < MIN_MSG_LENGTH
          · rw [if_pos hlt]; exact ih seen acc total
          · rw [if_neg hlt]
            by_cases hk : clientKey t ∈ seen
            · rw [if_pos hk]; exact ih seen acc total
            · rw [if_neg hk]
              by_cases hcl : clean_text t = []
              · rw [if_pos hcl]; exact ih _ acc total
              · rw [if_neg hcl]
                by_cases hb : L < total + (clean_text t).length
                · rw [if_pos hb]
                  exact ⟨[], by simp [sumLens_nil]⟩
                · rw [if_neg hb]
                  obtain ⟨added, hacc, htot, hbound⟩ :=
                    ih (clientKey t :: seen) (acc ++ [clean_text t])
                      (total + (clean_text t).length)
                  refine ⟨clean_text t :: added, ?_, ?_, ?_⟩
                  · rw [hacc, List.append_assoc]; rfl
                  · rw [htot, sumLens_cons]; omega
                  · intro _
                    exact hbound (Nat.not_lt.mp hb)

theorem collectClientGo_cons_none (cutoff : Int) (L maxPer : Nat)
    (resolve : Nat → Option (List Char × List TLMessage)) (cid : Nat)
    (rest : List Nat) (total : Nat) (res : List (List Char × List (List Char)))
    (hres : resolve cid = none) :
    collectClientGo cutoff L maxPer resolve (cid :: rest) total res =
      collectClientGo cutoff L maxPer resolve rest total res := by
  simp only [collectClientGo, hres]

theorem collectClientGo_cons_some (cutoff : Int) (L maxPer : Nat)
    (resolve : Nat → Option (List Char × List TLMessage)) (cid : Nat)
    (rest : List Nat) (total : Nat) (res : List (List Char × List (List Char)))
    (name : List Char) (msgs : List TLMessage)
    (hres : resolve cid = some (name, msgs)) :
    collectClientGo cutoff L maxPer resolve (cid :: rest) total res =
      (if L < (clientLoop cutoff L (msgs.take maxPer) [] [] total).2 then
        ((if (clientLoop cutoff L (msgs.take maxPer) [] [] total).1 = [] then res
          else dictInsert name (clientLoop cutoff L (msgs.take maxPer) [] [] total).1 res),
         (clientLoop cutoff L (msgs.take maxPer) [] [] total).2)
       else collectClientGo cutoff L maxPer resolve rest
         (clientLoop cutoff L (msgs.take maxPer) [] [] total).2
         (if (clientLoop cutoff L (msgs.take maxPer) [] [] total).1 = [] then res
          else dictInsert name (clientLoop cutoff L (msgs.take maxPer) [] [] total).1 res)) := by
  simp only [collectClientGo, hres]

theorem collectClientGo_bound (cutoff : Int) (L maxPer : Nat)
    (resolve : Nat → Option (List Char × List TLMessage)) :
    ∀ (chs : List Nat) (total : Nat)
      (res : List (List Char × List (List Char))),
      total ≤ L → sumVals res ≤ total → (res.map Prod.fst).Nodup →
      sumVals (collectClientGo cutoff L maxPer resolve chs total res).1 ≤ L ∧
      (collectClientGo cutoff L maxPer resolve chs total res).2 ≤ L := by
  intro chs
  induction chs with
  | nil =>
    intro total res h1 h2 _
    exact ⟨Nat.le_trans h2 h1, h1⟩
  | cons cid rest ih =>
    intro total res h1 h2 h3
    cases hres : resolve cid with
    | none =>
      rw [collectClientGo_cons_none cutoff L maxPer resolve cid rest total res hres]
      exact ih total res h1 h2 h3
    | some pr =>
      obtain ⟨name, msgs⟩ := pr
      rw [collectClientGo_cons_some cutoff L maxPer resolve cid rest total res name msgs hres]
      obtain ⟨added, hacc, htot, hbound⟩ :=
        clientLoop_spec cutoff L (msgs.take maxPer) [] [] total
      have hble : (clientLoop cutoff L (msgs.take maxPer) [] [] total).2 ≤ L := hbound h1
      have htotle : total ≤ (clientLoop cutoff L (msgs.take maxPer) [] [] total).2 := by
        rw [htot]; omega
      rw [if_neg (Nat.not_lt.mpr hble)]
      by_cases hemp : (clientLoop cutoff L (msgs.take maxPer) [] [] total).1 = []
      · rw [if_pos hemp]
        exact ih _ res hble (Nat.le_trans h2 htotle) h3
      · rw [if_neg hemp]
        refine ih _ _ hble ?_ ?_
        · calc sumVals (dictInsert name (clientLoop cutoff L (msgs.take maxPer) [] [] total).1 res)
              ≤ sumVals res + sumLens (clientLoop cutoff L (msgs.take maxPer) [] [] total).1 :=
                dictInsert_sumVals _ _ res h3
            _ ≤ total + sumLens (clientLoop cutoff L (msgs.take maxPer) [] [] total).1 := by omega
            _ ≤ (clientLoop cutoff L (msgs.take maxPer) [] [] total).2 := by
                rw [htot, hacc]
                simp [sumLens_append]
        · exact dictInsert_fst_nodup _ _ res h3

/-! ### Claim C1: budget ceiling invariant -/

/-- C1: for any ceiling `tokenLimit` (the source's `max_tokens * 4`), the sum
of the lengths of all cleaned messages stored across the collection result
never exceeds the ceiling, in the scrape-based and in the client-based
variant, for every transport behaviour — in particular at the moment
collection halts, and (taking any prefix of the channel list or of a
channel's messages) at every intermediate point. -/
theorem c1_budget_ceiling :
    (∀ (tokenLimit : Nat) (scrape : List Char → List (List Char))
       (channels : List (List Char)),
       sumVals (collect_messages_public tokenLimit scrape channels) ≤ tokenLimit) ∧
    (∀ (cutoff : Int) (tokenLimit maxPer : Nat)
       (resolve : Nat → Option (List Char × List TLMessage)) (channels : List Nat),
       sumVals (collect_messages_client cutoff tokenLimit maxPer resolve channels) ≤
         tokenLimit) :=
  ⟨fun L scrape chs =>
     (collectPubGo_bound L scrape chs 0 [] (Nat.zero_le L) (Nat.le_refl 0) List.nodup_nil).1,
   fun cutoff L maxPer resolve chs =>
     (collectClientGo_bound cutoff L maxPer resolve chs 0 [] (Nat.zero_le L)
       (Nat.le_refl 0) List.nodup_nil).1⟩

/-! ### Claim C2: budget halt across channels -/

/-- Transport for the C2 scenario: channel `a` produces two 30-character
messages, channel `b` one 20-character message. -/
def c2scrape : List Char → List (List Char) := fun ch =>
  if ch = ['a'] then [List.replicate 30 'x', List.replicate 30 'y']
  else if ch = ['b'] then [List.replicate 20 'z'] else []

/-- C2 (counterexample): with ceiling 50 and channel `a` producing messages
of lengths 30 and 30, the second configured channel `b` IS processed and its
message is collected, contradicting the claim that no further channel is
processed. -/
theorem c2_budget_halt_cex :
    (['b'], [List.replicate 20 'z']) ∈ collect_messages_public 50 c2scrape [['a'], ['b']] := by
  decide

/-- C2 (amended): collection across channels halts only when the running
total strictly exceeds the ceiling; since a message is accepted only while
the total stays at or below the ceiling, the running total never strictly
exceeds it and every configured channel is processed.  In the scenario with
ceiling 50 and channel `a` producing lengths 30 and 30, only `a`'s first
message is kept and channel `b` is still processed, contributing its fitting
message. -/
theorem c2_budget_halt :
    collect_messages_public 50 c2scrape [['a'], ['b']] =
      [(['a'], [List.replicate 30 'x']), (['b'], [List.replicate 20 'z'])] ∧
    (∀ (L : Nat) (scrape : List Char → List (List Char)) (channels : List (List Char)),
       (collectPubGo L scrape channels 0 []).2 ≤ L) ∧
    (∀ (cutoff : Int) (L maxPer : Nat) (resolve : Nat → Option (List Char × List TLMessage))
       (channels : List Nat),
       (collectClientGo cutoff L maxPer resolve channels 0 []).2 ≤ L) :=
  ⟨by decide,
   fun L scrape chs =>
     (collectPubGo_bound L scrape chs 0 [] (Nat.zero_le L) (Nat.le_refl 0) List.nodup_nil).2,
   fun cutoff L maxPer resolve chs =>
     (collectClientGo_bound cutoff L maxPer resolve chs 0 [] (Nat.zero_le L)
       (Nat.le_refl 0) List.nodup_nil).2⟩

/-! ### Claim C5: within-channel deduplication -/

theorem clientLoop_single_dup (cutoff : Int) (L : Nat) (m2 : TLMessage)
    (seen acc : List (List Char)) (total : Nat) (t2 : List Char)
    (hext2 : extract_text m2 = some t2) (hk : clientKey t2 ∈ seen) :
    clientLoop cutoff L [m2] seen acc total = (acc, total) := by
  by_cases hd2 : m2.date < cutoff
  · exact clientLoop_cons_break cutoff L m2 [] seen acc total hd2
  · by_cases hn2 : is_noise m2
    · rw [clientLoop_cons_noise cutoff L m2 [] seen acc total hd2 hn2]
      rfl
    · rw [clientLoop_cons_some cutoff L m2 [] seen acc total t2 hd2
        (by simpa using hn2) hext2]
      by_cases h2l : t2.length < MIN_MSG_LENGTH
      · rw [if_pos h2l]; rfl
      · rw [if_neg h2l, if_pos hk]; rfl

theorem scrapeFilter_pair (m1 m2 : Msg)
    (hkey : pubKey m2.text = pubKey m1.text)
    (hlen : MIN_MSG_LENGTH ≤ m1.text.length) :
    scrapeFilter [m1, m2] [] = scrapeFilter [m1] [] := by
  have h1 : ¬ m1.text.length < MIN_MSG_LENGTH := Nat.not_lt.mpr hlen
  have hmem : pubKey m2.text ∈ [pubKey m1.text] := by
    rw [hkey]; exact List.mem_singleton_self _
  by_cases h2 : m2.text.length < MIN_MSG_LENGTH <;>
    by_cases h3 : clean_text m1.text = [] <;>
      simp [scrapeFilter, h1, h2, h3, hmem, hkey]

theorem clientLoop_pair (cutoff : Int) (L : Nat) (m1 m2 : TLMessage)
    (seen acc : List (List Char)) (total : Nat) (t1 t2 : List Char)
    (hd1 : ¬ m1.date < cutoff) (hn1 : is_noise m1 = false)
    (hext1 : extract_text m1 = some t1) (hlen1 : MIN_MSG_LENGTH ≤ t1.length)
    (hext2 : extract_text m2 = some t2)
    (hkey : clientKey t2 = clientKey t1) :
    clientLoop cutoff L [m1, m2] seen acc total =
      clientLoop cutoff L [m1] seen acc total := by
  rw [clientLoop_cons_some cutoff L m1 [m2] seen acc total t1 hd1 hn1 hext1,
    clientLoop_cons_some cutoff L m1 [] seen acc total t1 hd1 hn1 hext1]
  rw [if_neg (Nat.not_lt.mpr hlen1), if_neg (Nat.not_lt.mpr hlen1)]
  by_cases hk : clientKey t1 ∈ seen
  · rw [if_pos hk, if_pos hk]
    rw [clientLoop_single_dup cutoff L m2 seen acc total t2 hext2 (by rw [hkey]; exact hk)]
    rfl
  · rw [if_neg hk, if_neg hk]
    by_cases hcl : clean_text t1 = []
    · rw [if_pos hcl, if_pos hcl]
      rw [clientLoop_single_dup cutoff L m2 (clientKey t1 :: seen) acc total t2 hext2
        (by rw [hkey]; exact List.mem_cons_self _ _)]
      rfl
    · rw [if_neg hcl, if_neg hcl]
      by_cases hb : L < total + (clean_text t1).length
      · rw [if_pos hb, if_pos hb]
      · rw [if_neg hb, if_neg hb]
        rw [clientLoop_single_dup cutoff L m2 (clientKey t1 :: seen)
          (acc ++ [clean_text t1]) (total + (clean_text t1).length) t2 hext2
          (by rw [hkey]; exact List.mem_cons_self _ _)]
        rfl

/-- First message of the C5 counterexample: doubled internal space. -/
def c5msg1 : TLMessage :=
  { date := 100, isService := false, sticker := false, voice := false,
    videoNote := false, gif := false, media := Media.nomedia,
    text := "hello  world go go go".toList }

/-- Second message of the C5 counterexample: single internal space. -/
def c5msg2 : TLMessage :=
  { date := 99, isService := false, sticker := false, voice := false,
    videoNote := false, gif := false, media := Media.nomedia,
    text := "hello world go go go".toList }

/-- C5 (counterexample): the two messages agree on the lowercased,
whitespace-collapsed 100-character prefix (the claim's key), yet the client
variant — which lowercases the raw prefix without collapsing whitespace —
keeps both, so the channel digest holds two cleaned messages instead of
exactly one. -/
theorem c5_dedup_cex :
    pubKey c5msg1.text = pubKey c5msg2.text ∧
    (clientLoop 0 100000 [c5msg1, c5msg2] [] [] 0).1.length = 2 := by decide

/-- C5 (amended): the public variant deduplicates on the lowercased,
stripped, whitespace-collapsed first-100-character prefix of the raw text,
while the client variant deduplicates on the lowercased first-100-character
prefix without whitespace collapsing.  Within each variant, feeding two raw
units with identical variant key yields at most the first occurrence's
cleaned message: the duplicate contributes nothing to the digest. -/
theorem c5_dedup :
    (∀ (m1 m2 : Msg), pubKey m2.text = pubKey m1.text →
       MIN_MSG_LENGTH ≤ m1.text.length →
       scrapeFilter [m1, m2] [] = scrapeFilter [m1] []) ∧
    (∀ (cutoff : Int) (L : Nat) (m1 m2 : TLMessage) (seen acc : List (List Char))
       (total : Nat) (t1 t2 : List Char), ¬ m1.date < cutoff → is_noise m1 = false →
       extract_text m1 = some t1 → MIN_MSG_LENGTH ≤ t1.length →
       extract_text m2 = some t2 → clientKey t2 = clientKey t1 →
       clientLoop cutoff L [m1, m2] seen acc total =
         clientLoop cutoff L [m1] seen acc total) :=
  ⟨fun m1 m2 hkey hlen => scrapeFilter_pair m1 m2 hkey hlen,
   fun cutoff L m1 m2 seen acc total t1 t2 hd1 hn1 hext1 hlen1 hext2 hkey =>
     clientLoop_pair cutoff L m1 m2 seen acc total t1 t2 hd1 hn1 hext1 hlen1 hext2 hkey⟩

/-- C5 (witness): both parts of the amended theorem at concrete inputs —
two identical-keyed raw messages in each variant produce the same digest as
the first alone. -/
theorem c5_dedup_witness :
    scrapeFilter [({ id := 1, date := 5, text := "good morning everyone!".toList } : Msg),
        ({ id := 2, date := 4, text := "GOOD  MORNING everyone!".toList } : Msg)] [] =
      scrapeFilter [({ id := 1, date := 5, text := "good morning everyone!".toList } : Msg)] [] ∧
    clientLoop 0 100000 [c5msg2, c5msg2] [] [] 0 = clientLoop 0 100000 [c5msg2] [] [] 0 :=
  ⟨c5_dedup.1 _ _ (by decide) (by decide),
   c5_dedup.2 0 100000 c5msg2 c5msg2 [] [] 0
     (pyStrip "hello world go go go".toList) (pyStrip "hello world go go go".toList)
     (by decide) (by decide) (by decide) (by decide) (by decide) (by decide)⟩

/-! ### Claim C7: cutoff correctness -/

theorem parseGo_mem (cutoff : Int) :
    ∀ (widgets : List Widget) (oldest : Option Int) (m : Msg),
      m ∈ (parseGo cutoff widgets oldest).1 → cutoff ≤ m.date := by
  intro widgets
  induction widgets with
  | nil => intro oldest m h; simp [parseGo] at h
  | cons w rest ih =>
    intro oldest m h
    cases hpid : w.postId with
    | none =>
      simp only [parseGo, hpid] at h
      exact ih oldest m h
    | some mid =>
      simp only [parseGo, hpid] at h
      cases hwd : w.wdate with
      | none =>
        simp only [hwd] at h
        exact ih _ m h
      | some d =>
        simp only [hwd] at h
        by_cases hcut : d < cutoff
        · rw [if_pos hcut] at h
          exact ih _ m h
        · rw [if_neg hcut] at h
          cases hwt : w.wtext with
          | none =>
            simp only [hwt] at h
            exact ih _ m h
          | some t =>
            simp only [hwt] at h
            by_cases hemp : pyStrip t = []
            · rw [if_pos hemp] at h
              exact ih _ m h
            · rw [if_neg hemp] at h
              rcases List.mem_cons.mp h with hm | hm
              · rw [hm]
                exact Int.not_lt.mp hcut
              · exact ih _ m hm

theorem parse_messages_mem (widgets : List Widget) (u : Bool) (cutoff : Int)
    (m : Msg) (h : m ∈ (parse_messages widgets u cutoff).1) : cutoff ≤ m.date := by
  unfold parse_messages at h
  cases u with
  | true => simp at h
  | false => exact parseGo_mem cutoff widgets none m (by simpa using h)

theorem addNew_mem :
    ∀ (ms : List Msg) (seen : List Int) (acc : List Msg) (x : Msg),
      x ∈ (addNew seen acc ms).2.1 → x ∈ acc ∨ x ∈ ms := by
  intro ms
  induction ms with
  | nil => intro seen acc x h; exact Or.inl (by simpa [addNew] using h)
  | cons m rest ih =>
    intro seen acc x h
    simp only [addNew] at h
    by_cases hm : m.id ∈ seen
    · rw [if_pos hm] at h
      rcases ih seen acc x h with h1 | h1
      · exact Or.inl h1
      · exact Or.inr (List.mem_cons_of_mem m h1)
    · rw [if_neg hm] at h
      rcases ih (m.id :: seen) (acc ++ [m]) x h with h1 | h1
      · rcases List.mem_append.mp h1 with h2 | h2
        · exact Or.inl h2
        · exact Or.inr (List.mem_cons.mpr (Or.inl (by simpa using h2)))
      · exact Or.inr (List.mem_cons_of_mem m h1)

theorem scrape_loop_mem (cutoff : Int) (maxM : Nat) :
    ∀ (rem : Nat) (isF : Bool) (stream : List FetchOutcome) (before : Option Int)
      (seen : List Int) (acc : List Msg) (m : Msg),
      (∀ x ∈ acc, cutoff ≤ x.date) →
      m ∈ (scrape_loop cutoff maxM rem isF stream before seen acc).1 →
      cutoff ≤ m.date := by
  intro rem
  induction rem with
  | zero =>
    intro isF stream before seen acc m hacc h
    exact hacc m (by simpa [scrape_loop] using h)
  | succ rem ih =>
    intro isF stream before seen acc m hacc h
    rcases hfp : fetch_page stream with ⟨fst, snd⟩
    cases fst with
    | none =>
      simp only [scrape_loop, hfp] at h
      exact hacc m h
    | some pr =>
      obtain ⟨widgets, unavail⟩ := pr
      simp only [scrape_loop, hfp] at h
      have hparse : ∀ x ∈ (parse_messages widgets unavail cutoff).1, cutoff ≤ x.date :=
        fun x hx => parse_messages_mem widgets unavail cutoff x hx
      have hnew : ∀ x ∈ (addNew seen acc (parse_messages widgets unavail cutoff).1).2.1,
          cutoff ≤ x.date := by
        intro x hx
        rcases addNew_mem _ seen acc x hx with h1 | h1
        · exact hacc x h1
        · exact hparse x h1
      by_cases hfirst : (parse_messages widgets unavail cutoff).1.isEmpty && isF
      · rw [if_pos hfirst] at h
        exact hacc m h
      · rw [if_neg hfirst] at h
        by_cases hzero : (addNew seen acc (parse_messages widgets unavail cutoff).1).2.2 = 0
        · rw [if_pos hzero] at h
          exact hnew m h
        · rw [if_neg hzero] at h
          by_cases hcap : maxM ≤
              (addNew seen acc (parse_messages widgets unavail cutoff).1).2.1.length
          · rw [if_pos hcap] at h
            exact hnew m h
          · rw [if_neg hcap] at h
            cases hold : (parse_messages widgets unavail cutoff).2 with
            | none =>
              simp only [hold] at h
              exact hnew m h
            | some o =>
              simp only [hold] at h
              exact ih false snd (some o) _ _ m hnew h

theorem clientLoop_takeWhile (cutoff : Int) (L : Nat) :
    ∀ (msgs : List TLMessage) (seen acc : List (List Char)) (total : Nat),
      clientLoop cutoff L msgs seen acc total =
        clientLoop cutoff L (msgs.takeWhile (fun m => decide (cutoff ≤ m.date)))
          seen acc total := by
  intro msgs
  induction msgs with
  | nil => intro seen acc total; rfl
  | cons m rest ih =>
    intro seen acc total
    by_cases hd : m.date < cutoff
    · have hdec : decide (cutoff ≤ m.date) = false := decide_eq_false (Int.not_le.mpr hd)
      have htw : List.takeWhile (fun x : TLMessage => decide (cutoff ≤ x.date)) (m :: rest) =
          [] := by
        rw [List.takeWhile_cons (fun x : TLMessage => decide (cutoff ≤ x.date)) m rest]
        simp [hdec]
      rw [htw, clientLoop_cons_break cutoff L m rest seen acc total hd]
      rfl
    · have hdec : decide (cutoff ≤ m.date) = true := decide_eq_true (Int.not_lt.mp hd)
      have htw : List.takeWhile (fun x : TLMessage => decide (cutoff ≤ x.date)) (m :: rest) =
          m :: List.takeWhile (fun x : TLMessage => decide (cutoff ≤ x.date)) rest := by
        rw [List.takeWhile_cons (fun x : TLMessage => decide (cutoff ≤ x.date)) m rest]
        simp [hdec]
      rw [htw]
      by_cases hn : is_noise m
      · rw [clientLoop_cons_noise cutoff L m rest seen acc total hd hn,
          clientLoop_cons_noise cutoff L m _ seen acc total hd hn]
        exact ih seen acc total
      · have hn' : is_noise m = false := by simpa using hn
        cases hext : extract_text m with
        | none =>
          rw [clientLoop_cons_none cutoff L m rest seen acc total hd hn' hext,
            clientLoop_cons_none cutoff L m _ seen acc total hd hn' hext]
          exact ih seen acc total
        | some t =>
          rw [clientLoop_cons_some cutoff L m rest seen acc total t hd hn' hext,
            clientLoop_cons_some cutoff L m _ seen acc total t hd hn' hext]
          by_cases hlt : t.length < MIN_MSG_LENGTH
          · rw [if_pos hlt, if_pos hlt]; exact ih seen acc total
          · rw [if_neg hlt, if_neg hlt]
            by_cases hk : clientKey t ∈ seen
            · rw [if_pos hk, if_pos hk]; exact ih seen acc total
            · rw [if_neg hk, if_neg hk]
              by_cases hcl : clean_text t = []
              · rw [if_pos hcl, if_pos hcl]; exact ih _ acc total
              · rw [if_neg hcl, if_neg hcl]
                by_cases hb : L < total + (clean_text t).length
                · rw [if_pos hb, if_pos hb]
                · rw [if_neg hb, if_neg hb]
                  exact ih _ _ _

/-- C7: a raw message unit timestamped strictly before the cutoff never
contributes to the result: the scrape variant's parser keeps only messages
dated at or after the cutoff (hence so does the pagination loop feeding the
channel digest), and the client variant's loop computes the same result on
the longest prefix of messages dated at or after the cutoff, i.e. it never
reads past the first older message. -/
theorem c7_cutoff_correct :
    (∀ (widgets : List Widget) (u : Bool) (cutoff : Int) (m : Msg),
       m ∈ (parse_messages widgets u cutoff).1 → cutoff ≤ m.date) ∧
    (∀ (cutoff : Int) (maxM rem : Nat) (isF : Bool) (stream : List FetchOutcome)
       (before : Option Int) (seen : List Int) (acc : List Msg) (m : Msg),
       (∀ x ∈ acc, cutoff ≤ x.date) →
       m ∈ (scrape_loop cutoff maxM rem isF stream before seen acc).1 →
       cutoff ≤ m.date) ∧
    (∀ (cutoff : Int) (L : Nat) (msgs : List TLMessage) (seen acc : List (List Char))
       (total : Nat),
       clientLoop cutoff L msgs seen acc total =
         clientLoop cutoff L (msgs.takeWhile (fun m => decide (cutoff ≤ m.date)))
           seen acc total) :=
  ⟨fun widgets u cutoff m h => parse_messages_mem widgets u cutoff m h,
   fun cutoff maxM rem isF stream before seen acc m hacc h =>
     scrape_loop_mem cutoff maxM rem isF stream before seen acc m hacc h,
   fun cutoff L msgs seen acc total => clientLoop_takeWhile cutoff L msgs seen acc total⟩

/-- C7 (witness): the parser conjunct applied to a concrete widget whose
message survives the cutoff. -/
theorem c7_cutoff_correct_witness :
    ({ id := 7, date := 12, text := "breaking news today".toList } : Msg) ∈
      (parse_messages
        [{ postId := some 7, wdate := some 12, wtext := some "breaking news today".toList }]
        false 3).1 ∧
    (3 : Int) ≤ ({ id := 7, date := 12, text := "breaking news today".toList } : Msg).date :=
  ⟨by decide,
   c7_cutoff_correct.1
     [{ postId := some 7, wdate := some 12, wtext := some "breaking news today".toList }]
     false 3 { id := 7, date := 12, text := "breaking news today".toList } (by decide)⟩

/-! ### Claim C8: poll text extraction -/

/-- C8: for every message whose media is a poll with question `q` and
answers `ans`, text extraction returns exactly
`"Poll: " ++ q ++ " | Options: " ++ ans joined by ", "`, with the question
and every option verbatim in the output. -/
theorem c8_poll_extract (m : TLMessage) (q : List Char) (ans : List (List Char))
    (h : m.media = Media.poll q ans) :
    extract_text m = some ("Poll: ".toList ++ q ++ " | Options: ".toList ++
      List.intercalate ", ".toList ans) := by
  unfold extract_text
  rw [h]

/-- Poll message of the C8 scenario. -/
def c8poll : TLMessage :=
  { date := 5, isService := false, sticker := false, voice := false,
    videoNote := false, gif := false,
    media := Media.poll "Pick one".toList ["Red".toList, "Blue".toList],
    text := [] }

/-- C8 (witness): the scenario poll with question `Pick one` and options
`Red`, `Blue` extracts to exactly `Poll: Pick one | Options: Red, Blue`. -/
theorem c8_poll_extract_witness :
    c8poll.media = Media.poll "Pick one".toList ["Red".toList, "Blue".toList] ∧
    extract_text c8poll = some "Poll: Pick one | Options: Red, Blue".toList :=
  ⟨rfl,
   (c8_poll_extract c8poll "Pick one".toList ["Red".toList, "Blue".toList] rfl).trans
     (by decide)⟩

/-! ### Claim C9: transient-fetch retry semantics -/

/-- C9 (counterexample): a page fetch failing with a network error is not
retried — with a second attempt available that would succeed, `fetch_page`
returns failure and leaves that attempt unconsumed. -/
theorem c9_retry_cex :
    fetch_page [FetchOutcome.netErr, FetchOutcome.ok [] false] =
      (none, [FetchOutcome.ok [] false]) := by decide

/-- C9 (amended): only a rate-limit (HTTP 429) failure is retried, exactly
once after the fixed backoff; a 429 on the retry gives up, and a network or
HTTP error on the first attempt fails immediately without a retry.  A
failed page fetch aborts pagination for that channel only: the pagination
loop returns whatever was collected so far, and the channel loop continues
with the remaining channels (a channel whose scrape yields nothing is
simply skipped). -/
theorem c9_retry :
    (∀ (w : List Widget) (u : Bool) (rest : List FetchOutcome),
       fetch_page (FetchOutcome.rate :: FetchOutcome.ok w u :: rest) = (some (w, u), rest)) ∧
    (∀ rest, fetch_page (FetchOutcome.rate :: FetchOutcome.rate :: rest) = (none, rest)) ∧
    (∀ rest, fetch_page (FetchOutcome.netErr :: rest) = (none, rest)) ∧
    (∀ rest, fetch_page (FetchOutcome.httpErr :: rest) = (none, rest)) ∧
    (∀ (cutoff : Int) (maxM rem : Nat) (stream : List FetchOutcome) (before : Option Int)
       (seen : List Int) (acc : List Msg),
       (fetch_page stream).1 = none →
       scrape_loop cutoff maxM (rem + 1) false stream before seen acc =
         (acc, (fetch_page stream).2)) ∧
    (∀ (L : Nat) (scrape : List Char → List (List Char)) (raw : List Char)
       (rest : List (List Char)) (total : Nat) (res : List (List Char × List (List Char))),
       scrape (normChannel raw) = [] → total ≤ L →
       collectPubGo L scrape (raw :: rest) total res =
         collectPubGo L scrape rest total res) := by
  refine ⟨fun w u rest => rfl, fun rest => rfl, fun rest => rfl, fun rest => rfl, ?_, ?_⟩
  · intro cutoff maxM rem stream before seen acc h
    rcases hfp : fetch_page stream with ⟨fst, snd⟩
    rw [hfp] at h
    cases fst with
    | none => simp only [scrape_loop, hfp]
    | some pr => exact absurd h (by simp)
  · intro L scrape raw rest total res hscr htot
    by_cases hch : normChannel raw = []
    · simp only [collectPubGo, if_pos hch]
    · simp only [collectPubGo, if_neg hch, hscr]
      simp only [applyBudget]
      simp [Nat.not_lt.mpr htot]

/-! ### Claim C10: result-key collision overwrites -/

/-- C10: if two configured channels map to the same result key (public
variant: equal after stripping `@` and whitespace; client variant: equal
display names), the later channel's accepted list replaces the earlier
entry in the result mapping, the earlier messages are lost from the result,
and their lengths still count against the running budget total. -/
theorem c10_collision_overwrite :
    (∀ (L : Nat) (scrape : List Char → List (List Char)) (raw1 raw2 : List Char)
       (B1 B2 : List (List Char) × Nat),
       B1 = applyBudget L 0 (scrape (normChannel raw1)) →
       B2 = applyBudget L B1.2 (scrape (normChannel raw1)) →
       normChannel raw1 ≠ [] → normChannel raw2 = normChannel raw1 →
       B1.1 ≠ [] → B1.2 ≤ L → B2.1 ≠ [] →
       collectPubGo L scrape [raw1, raw2] 0 [] = ([(normChannel raw1, B2.1)], B2.2) ∧
       B2.2 = sumLens B1.1 + sumLens B2.1) ∧
    (∀ (cutoff : Int) (L maxPer : Nat)
       (resolve : Nat → Option (List Char × List TLMessage)) (id1 id2 : Nat)
       (name : List Char) (msgs1 msgs2 : List TLMessage)
       (P1 P2 : List (List Char) × Nat),
       resolve id1 = some (name, msgs1) → resolve id2 = some (name, msgs2) →
       P1 = clientLoop cutoff L (msgs1.take maxPer) [] [] 0 →
       P2 = clientLoop cutoff L (msgs2.take maxPer) [] [] P1.2 →
       P1.1 ≠ [] → P1.2 ≤ L → P2.1 ≠ [] →
       collectClientGo cutoff L maxPer resolve [id1, id2] 0 [] =
         ([(name, P2.1)], P2.2) ∧
       P2.2 = sumLens P1.1 + sumLens P2.1) := by
  constructor
  · intro L scrape raw1 raw2 B1 B2 hB1 hB2 hch1 hch2 hne1 hle1 hne2
    subst hB2
    subst hB1
    have hsum1 := (applyBudget_spec L (scrape (normChannel raw1)) 0).1
    have hsum2 := (applyBudget_spec L (scrape (normChannel raw1))
      (applyBudget L 0 (scrape (normChannel raw1))).2).1
    constructor
    · simp only [collectPubGo, if_neg hch1, if_neg hne1]
      have hd1 : dictInsert (normChannel raw1)
          (applyBudget L 0 (scrape (normChannel raw1))).1 [] =
          [(normChannel raw1, (applyBudget L 0 (scrape (normChannel raw1))).1)] := by
        simp [dictInsert]
      rw [hd1, if_neg (Nat.not_lt.mpr hle1)]
      simp only [collectPubGo, hch2, if_neg hch1, if_neg hne2]
      have hd2 : dictInsert (normChannel raw1)
          (applyBudget L (applyBudget L 0 (scrape (normChannel raw1))).2
            (scrape (normChannel raw1))).1
          [(normChannel raw1, (applyBudget L 0 (scrape (normChannel raw1))).1)] =
          [(normChannel raw1,
            (applyBudget L (applyBudget L 0 (scrape (normChannel raw1))).2
              (scrape (normChannel raw1))).1)] := by
        simp [dictInsert]
      rw [hd2]
      by_cases hb : L < (applyBudget L (applyBudget L 0 (scrape (normChannel raw1))).2
          (scrape (normChannel raw1))).2
      · rw [if_pos hb]
      · rw [if_neg hb]
    · omega
  · intro cutoff L maxPer resolve id1 id2 name msgs1 msgs2 P1 P2 hr1 hr2 hP1 hP2
      hne1 hle1 hne2
    subst hP2
    subst hP1
    constructor
    · rw [collectClientGo_cons_some cutoff L maxPer resolve id1 [id2] 0 [] name msgs1 hr1]
      rw [if_neg (Nat.not_lt.mpr hle1), if_neg hne1]
      have hd1 : dictInsert name (clientLoop cutoff L (msgs1.take maxPer) [] [] 0).1 [] =
          [(name, (clientLoop cutoff L (msgs1.take maxPer) [] [] 0).1)] := by
        simp [dictInsert]
      rw [hd1]
      rw [collectClientGo_cons_some cutoff L maxPer resolve id2 []
        (clientLoop cutoff L (msgs1.take maxPer) [] [] 0).2
        [(name, (clientLoop cutoff L (msgs1.take maxPer) [] [] 0).1)] name msgs2 hr2]
      rw [if_neg hne2]
      have hd2 : dictInsert name
          (clientLoop cutoff L (msgs2.take maxPer) [] []
            (clientLoop cutoff L (msgs1.take maxPer) [] [] 0).2).1
          [(name, (clientLoop cutoff L (msgs1.take maxPer) [] [] 0).1)] =
          [(name, (clientLoop cutoff L (msgs2.take maxPer) [] []
            (clientLoop cutoff L (msgs1.take maxPer) [] [] 0).2).1)] := by
        simp [dictInsert]
      rw [hd2]
      by_cases hb : L < (clientLoop cutoff L (msgs2.take maxPer) [] []
          (clientLoop cutoff L (msgs1.take maxPer) [] [] 0).2).2
      · rw [if_pos hb]
      · rw [if_neg hb]; rfl
    · obtain ⟨a1, ha1, ht1, -⟩ := clientLoop_spec cutoff L (msgs1.take maxPer) [] [] 0
      obtain ⟨a2, ha2, ht2, -⟩ := clientLoop_spec cutoff L (msgs2.take maxPer) [] []
        (clientLoop cutoff L (msgs1.take maxPer) [] [] 0).2
      have e1 : sumLens (clientLoop cutoff L (msgs1.take maxPer) [] [] 0).1 = sumLens a1 := by
        rw [ha1]; simp
      have e2 : sumLens (clientLoop cutoff L (msgs2.take maxPer) [] []
          (clientLoop cutoff L (msgs1.take maxPer) [] [] 0).2).1 = sumLens a2 := by
        rw [ha2]; simp
      omega

/-- C9 (witness): a failed fetch ends pagination with the collected
messages, and a channel yielding nothing is skipped while the next channel
is still processed. -/
theorem c9_retry_witness :
    (fetch_page [FetchOutcome.httpErr]).1 = none ∧
    scrape_loop 0 200 3 false [FetchOutcome.httpErr] none [] [] =
      ([], (fetch_page [FetchOutcome.httpErr]).2) ∧
    collectPubGo 100 (fun _ => []) [['a'], ['b']] 0 [] =
      collectPubGo 100 (fun _ => []) [['b']] 0 [] :=
  ⟨by decide,
   c9_retry.2.2.2.2.1 0 200 2 [FetchOutcome.httpErr] none [] [] (by decide),
   c9_retry.2.2.2.2.2 100 (fun _ => []) ['a'] [['b']] 0 [] (by decide) (by decide)⟩

/-- Transport of the C10 public-variant witness. -/
def c10scrape : List Char → List (List Char) := fun ch =>
  if ch = "news".toList then [List.replicate 5 'p', List.replicate 30 'q'] else []

/-- First resolved message of the C10 client-variant witness. -/
def c10msgA : TLMessage :=
  { date := 10, isService := false, sticker := false, voice := false,
    videoNote := false, gif := false, media := Media.nomedia,
    text := "alpha message number one".toList }

/-- Second resolved message of the C10 client-variant witness. -/
def c10msgB : TLMessage :=
  { date := 9, isService := false, sticker := false, voice := false,
    videoNote := false, gif := false, media := Media.nomedia,
    text := "beta message number two".toList }

/-- Entity resolution of the C10 client-variant witness: two distinct
channel identifiers share the display name `nm`. -/
def c10resolve : Nat → Option (List Char × List TLMessage) := fun i =>
  if i = 1 then some ("nm".toList, [c10msgA])
  else if i = 2 then some ("nm".toList, [c10msgB]) else none

/-- C10 (witness): in the public variant, `@news` and `news` collide and the
second pass's shorter budgeted list replaces the first while the total
counts both passes; in the client variant, two identifiers with display
name `nm` collide and the second message list replaces the first. -/
theorem c10_collision_overwrite_witness :
    collectPubGo 41 c10scrape ["@news".toList, "news".toList] 0 [] =
      ([("news".toList, [List.replicate 5 'p'])], 40) ∧
    collectClientGo 0 100000 200 c10resolve [1, 2] 0 [] =
      ([("nm".toList, ["beta message number two".toList])], 47) :=
  ⟨((c10_collision_overwrite.1 41 c10scrape "@news".toList "news".toList
      ([List.replicate 5 'p', List.replicate 30 'q'], 35) ([List.replicate 5 'p'], 40)
      (by decide) (by decide) (by decide) (by decide) (by decide) (by decide)
      (by decide)).1).trans (by decide),
   ((c10_collision_overwrite.2 0 100000 200 c10resolve 1 2 "nm".toList
      [c10msgA] [c10msgB]
      (["alpha message number one".toList], 24)
      (["beta message number two".toList], 47)
      (by decide) (by decide) (by decide) (by decide) (by decide) (by decide)
      (by decide)).1)⟩

/-! ### Claim C4: delivery chunking -/

theorem splitNl_ne_nil (t : List Char) : splitNl t ≠ [] := by
  cases t with
  | nil => simp [splitNl]
  | cons c rest =>
    by_cases h : c = '\n'
    · simp [splitNl, h]
    · simp only [splitNl, if_neg h]
      cases hs : splitNl rest with
      | nil => simp
      | cons l ls => simp

theorem splitNl_join (t : List Char) :
    ((splitNl t).map (fun l => l ++ ['\n'])).flatten = t ++ ['\n'] := by
  induction t with
  | nil => rfl
  | cons c rest ih =>
    by_cases h : c = '\n'
    · subst h
      have hs : splitNl ('\n' :: rest) = [] :: splitNl rest := by simp [splitNl]
      rw [hs, List.map_cons, List.flatten_cons, ih]
      rfl
    · cases hs : splitNl rest with
      | nil => exact absurd hs (splitNl_ne_nil rest)
      | cons l ls =>
        rw [hs] at ih
        have hgoal : splitNl (c :: rest) = (c :: l) :: ls := by
          simp only [splitNl, if_neg h, hs]
        rw [hgoal, List.map_cons, List.flatten_cons]
        simp only [List.map_cons, List.flatten_cons] at ih
        simp only [List.cons_append, List.append_assoc] at ih ⊢
        rw [ih]

theorem chunkFold_flatten :
    ∀ (lines : List (List Char)) (st : List (List Char) × List Char),
      (lines.foldl chunkStep st).1.flatten ++ (lines.foldl chunkStep st).2 =
        st.1.flatten ++ st.2 ++ ((lines.map (fun l => l ++ ['\n'])).flatten) := by
  intro lines
  induction lines with
  | nil => intro st; simp
  | cons l ls ih =>
    intro st
    rw [List.foldl_cons, ih (chunkStep st l)]
    unfold chunkStep
    by_cases h : TG_MAX_MESSAGE_LENGTH < st.2.length + l.length + 1
    · rw [if_pos h]
      simp [List.append_assoc]
    · rw [if_neg h]
      simp [List.append_assoc]

theorem chunkFold_bound :
    ∀ (lines : List (List Char)) (st : List (List Char) × List Char),
      (∀ c ∈ st.1, c.length ≤ TG_MAX_MESSAGE_LENGTH) →
      st.2.length ≤ TG_MAX_MESSAGE_LENGTH →
      (∀ l ∈ lines, l.length + 1 ≤ TG_MAX_MESSAGE_LENGTH) →
      (∀ c ∈ (lines.foldl chunkStep st).1, c.length ≤ TG_MAX_MESSAGE_LENGTH) ∧
      (lines.foldl chunkStep st).2.length ≤ TG_MAX_MESSAGE_LENGTH := by
  intro lines
  induction lines with
  | nil => intro st h1 h2 _; exact ⟨h1, h2⟩
  | cons l ls ih =>
    intro st h1 h2 hl
    rw [List.foldl_cons]
    have hlhead : l.length + 1 ≤ TG_MAX_MESSAGE_LENGTH := hl l (List.mem_cons_self l ls)
    have hltail : ∀ x ∈ ls, x.length + 1 ≤ TG_MAX_MESSAGE_LENGTH :=
      fun x hx => hl x (List.mem_cons_of_mem l hx)
    unfold chunkStep
    by_cases h : TG_MAX_MESSAGE_LENGTH < st.2.length + l.length + 1
    · rw [if_pos h]
      refine ih (st.1 ++ [st.2], l ++ ['\n']) ?_ ?_ hltail
      · intro c hc
        rcases List.mem_append.mp hc with hc | hc
        · exact h1 c hc
        · have : c = st.2 := by simpa using hc
          rw [this]; exact h2
      · simp only [List.length_append, List.length_cons, List.length_nil]
        omega
    · rw [if_neg h]
      refine ih (st.1, st.2 ++ l ++ ['\n']) h1 ?_ hltail
      simp only [List.length_append, List.length_cons, List.length_nil]
      omega

theorem chunkFold_head (header : List Char) :
    ∀ (lines : List (List Char)) (st : List (List Char) × List Char),
      (∃ r rest, st.1 ++ [st.2] = (header ++ r) :: rest) →
      ∃ r rest, (lines.foldl chunkStep st).1 ++ [(lines.foldl chunkStep st).2] =
        (header ++ r) :: rest := by
  intro lines
  induction lines with
  | nil => intro st h; exact h
  | cons l ls ih =>
    intro st hst
    rw [List.foldl_cons]
    apply ih
    obtain ⟨r, rest, heq⟩ := hst
    unfold chunkStep
    by_cases h : TG_MAX_MESSAGE_LENGTH < st.2.length + l.length + 1
    · rw [if_pos h]
      refine ⟨r, rest ++ [l ++ ['\n']], ?_⟩
      show (st.1 ++ [st.2]) ++ [l ++ ['\n']] = (header ++ r) :: (rest ++ [l ++ ['\n']])
      rw [heq]
      rfl
    · rw [if_neg h]
      cases hst1 : st.1 with
      | nil =>
        rw [hst1] at heq
        simp only [List.nil_append] at heq
        have h1 : st.2 = header ++ r := (List.cons.injEq _ _ _ _).mp heq |>.1
        refine ⟨r ++ l ++ ['\n'], [], ?_⟩
        show [st.2 ++ l ++ ['\n']] = [header ++ (r ++ l ++ ['\n'])]
        rw [h1]
        simp [List.append_assoc]
      | cons c cs =>
        rw [hst1] at heq
        simp only [List.cons_append] at heq
        have h1 : c = header ++ r := (List.cons.injEq _ _ _ _).mp heq |>.1
        refine ⟨r, cs ++ [st.2 ++ l ++ ['\n']], ?_⟩
        show (c :: cs) ++ [st.2 ++ l ++ ['\n']] = (header ++ r) :: (cs ++ [st.2 ++ l ++ ['\n']])
        rw [h1]
        rfl

theorem chunkFold_last :
    ∀ (lines : List (List Char)) (l : List Char) (st : List (List Char) × List Char),
      ∃ pre, ((lines ++ [l]).foldl chunkStep st).2 = pre ++ l ++ ['\n'] := by
  intro lines
  induction lines with
  | nil =>
    intro l st
    rw [List.nil_append, List.foldl_cons, List.foldl_nil]
    unfold chunkStep
    by_cases h : TG_MAX_MESSAGE_LENGTH < st.2.length + l.length + 1
    · rw [if_pos h]
      exact ⟨[], by simp⟩
    · rw [if_neg h]
      exact ⟨st.2, by simp⟩
  | cons l0 ls ih =>
    intro l st
    rw [List.cons_append, List.foldl_cons]
    exact ih l (chunkStep st l0)

theorem splitNl_no_newline (s : List Char) (h : ∀ c ∈ s, c ≠ '\n') :
    splitNl s = [s] := by
  induction s with
  | nil => rfl
  | cons c rest ih =>
    have hc : c ≠ '\n' := h c (List.mem_cons_self c rest)
    simp only [splitNl, if_neg hc]
    rw [ih (fun x hx => h x (List.mem_cons_of_mem c hx))]

/-- C4 (counterexample): with a one-character header and a 5000-character
single-line text, the chunker emits a 5001-character chunk (the limit check
happens before the line is appended, never after), and concatenating the
chunks does not reproduce `header ++ text` (a trailing newline is added). -/
theorem c4_chunking_cex :
    (∃ ch ∈ send_to_telegram_chunks ['H'] (List.replicate 5000 'x'),
       TG_MAX_MESSAGE_LENGTH < ch.length) ∧
    (send_to_telegram_chunks ['H'] (List.replicate 5000 'x')).flatten ≠
      ['H'] ++ List.replicate 5000 'x' := by
  have hsp : splitNl (List.replicate 5000 'x') = [List.replicate 5000 'x'] :=
    splitNl_no_newline _ (by
      intro c hc
      rw [List.eq_of_mem_replicate hc]
      decide)
  have hlen : (['H'] ++ List.replicate 5000 'x').length = 5001 := by
    rw [List.length_append, List.length_replicate]
    rfl
  have hlen2 : (List.replicate 5000 'x' ++ ['\n']).length = 5001 := by
    rw [List.length_append, List.length_replicate]
    rfl
  have hchunks : send_to_telegram_chunks ['H'] (List.replicate 5000 'x') =
      [['H'], List.replicate 5000 'x' ++ ['\n']] := by
    unfold send_to_telegram_chunks
    rw [if_neg (by rw [hlen]; norm_num [TG_MAX_MESSAGE_LENGTH])]
    rw [hsp, List.foldl_cons, List.foldl_nil]
    unfold chunkStep
    rw [if_pos (show TG_MAX_MESSAGE_LENGTH <
        (([] : List (List Char)), ['H']).2.length + (List.replicate 5000 'x').length + 1 by
      rw [List.length_replicate]
      norm_num [TG_MAX_MESSAGE_LENGTH])]
    rw [if_neg ?hne]
    case hne =>
      intro hnil
      have hall := pyStrip_eq_nil_all_space _ hnil
      have hx : ('x' : Char) ∈ List.replicate 5000 'x' ++ ['\n'] :=
        List.mem_append.mpr (Or.inl (List.mem_replicate.mpr ⟨by decide, rfl⟩))
      have hxs := hall 'x' hx
      simp [isPySpace] at hxs
    rfl
  constructor
  · refine ⟨List.replicate 5000 'x' ++ ['\n'], ?_, ?_⟩
    · rw [hchunks]
      exact List.mem_cons_of_mem ['H']
        (List.mem_cons_self (List.replicate 5000 'x' ++ ['\n']) [])
    · rw [hlen2]
      norm_num [TG_MAX_MESSAGE_LENGTH]
  · rw [hchunks]
    intro he
    have hlens := congrArg List.length he
    rw [List.flatten_cons, List.flatten_cons, List.flatten_nil] at hlens
    rw [List.length_append, List.length_append, List.length_append] at hlens
    rw [hlen, List.length_replicate] at hlens
    simp at hlens

/-- C4 (amended): provided the header is within the limit and every line of
the text is at most 4095 characters, each produced chunk is at most 4096
characters; the header appears once, at the start of the first chunk; and —
when the text's last line contains a non-whitespace character, so the final
chunk is not dropped — concatenating all chunks' non-header content yields
the original text followed by exactly one extra newline (or exactly the
original text in the single-chunk case). -/
theorem c4_chunking (header text : List Char)
    (hh : header.length ≤ TG_MAX_MESSAGE_LENGTH)
    (hl : ∀ l ∈ splitNl text, l.length + 1 ≤ TG_MAX_MESSAGE_LENGTH)
    (hlast : ∃ c ∈ (splitNl text).getLastD [], isPySpace c = false) :
    (∀ ch ∈ send_to_telegram_chunks header text, ch.length ≤ TG_MAX_MESSAGE_LENGTH) ∧
    ∃ r rest, send_to_telegram_chunks header text = (header ++ r) :: rest ∧
      r ++ rest.flatten = (if (header ++ text).length ≤ TG_MAX_MESSAGE_LENGTH
                           then text else text ++ ['\n']) := by
  by_cases hone : (header ++ text).length ≤ TG_MAX_MESSAGE_LENGTH
  · unfold send_to_telegram_chunks
    rw [if_pos hone]
    constructor
    · intro ch hch
      have hc : ch = header ++ text := by simpa using hch
      rw [hc]
      exact hone
    · exact ⟨text, [], by simp, by rw [if_pos hone]; simp⟩
  · obtain ⟨init, lastl, hsplit⟩ :=
      (splitNl text).eq_nil_or_concat.resolve_left (splitNl_ne_nil text)
    rw [List.concat_eq_append] at hsplit
    obtain ⟨pre, hlastcur⟩ := chunkFold_last init lastl (([] : List (List Char)), header)
    have hcur : ((splitNl text).foldl chunkStep ([], header)).2 = pre ++ lastl ++ ['\n'] := by
      rw [hsplit]; exact hlastcur
    have hkeep : ¬ pyStrip ((splitNl text).foldl chunkStep ([], header)).2 = [] := by
      intro hnil
      have hall := pyStrip_eq_nil_all_space _ hnil
      obtain ⟨c, hcmem, hcns⟩ := hlast
      have hcl : c ∈ lastl := by
        rw [hsplit, List.getLastD_concat] at hcmem
        exact hcmem
      have : isPySpace c = true := by
        apply hall
        rw [hcur]
        exact List.mem_append.mpr (Or.inl (List.mem_append.mpr (Or.inr hcl)))
      rw [this] at hcns
      exact absurd hcns (by decide)
    have hchunks : send_to_telegram_chunks header text =
        ((splitNl text).foldl chunkStep ([], header)).1 ++
          [((splitNl text).foldl chunkStep ([], header)).2] := by
      unfold send_to_telegram_chunks
      rw [if_neg hone, if_neg hkeep]
    have hbound := chunkFold_bound (splitNl text) ([], header) (by simp) hh hl
    have hhead := chunkFold_head header (splitNl text) ([], header)
      ⟨[], [], by simp⟩
    have hflat := chunkFold_flatten (splitNl text) ([], header)
    rw [splitNl_join] at hflat
    constructor
    · intro ch hch
      rw [hchunks] at hch
      rcases List.mem_append.mp hch with hc | hc
      · exact hbound.1 ch hc
      · have : ch = ((splitNl text).foldl chunkStep ([], header)).2 := by simpa using hc
        rw [this]
        exact hbound.2
    · obtain ⟨r, rest, hr⟩ := hhead
      refine ⟨r, rest, by rw [hchunks]; exact hr, ?_⟩
      rw [if_neg hone]
      have hfl : (((splitNl text).foldl chunkStep ([], header)).1 ++
          [((splitNl text).foldl chunkStep ([], header)).2]).flatten =
          header ++ (text ++ ['\n']) := by
        rw [List.flatten_append]
        simp only [List.flatten_cons, List.flatten_nil, List.append_nil]
        rw [hflat]
        simp [List.append_assoc]
      rw [hr] at hfl
      simp only [List.flatten_cons] at hfl
      rw [List.append_assoc] at hfl
      exact List.append_cancel_left hfl

/-- C4 (witness): the amended theorem at a concrete header and two-line
text — every chunk within the limit, header at the start of the first
chunk, and the non-header concatenation reproduces the text. -/
theorem c4_chunking_witness :
    ("HH\n\n".toList.length ≤ TG_MAX_MESSAGE_LENGTH) ∧
    (∀ ch ∈ send_to_telegram_chunks "HH\n\n".toList "hello\nworld".toList,
       ch.length ≤ TG_MAX_MESSAGE_LENGTH) ∧
    (∃ r rest, send_to_telegram_chunks "HH\n\n".toList "hello\nworld".toList =
        ("HH\n\n".toList ++ r) :: rest ∧
      r ++ rest.flatten =
        (if ("HH\n\n".toList ++ "hello\nworld".toList).length ≤ TG_MAX_MESSAGE_LENGTH
         then "hello\nworld".toList else "hello\nworld".toList ++ ['\n'])) :=
  ⟨by decide,
   (c4_chunking "HH\n\n".toList "hello\nworld".toList (by decide) (by decide)
     (by decide)).1,
   (c4_chunking "HH\n\n".toList "hello\nworld".toList (by decide) (by decide)
     (by decide)).2⟩

example : clean_text "a  b".toList = "a b".toList := by decide
example : clean_text "a\n\n\n\nb".toList = "a\n\nb".toList := by decide
example : mentionRemove "hi @somebot there".toList = "hi  there".toList := by decide
example : pubKey "A  b".toList = "a b".toList := by decide
example : clientKey "A  b".toList = "a  b".toList := by decide
